import Mathlib

/-!
# Verification of the pyre virtual-memory core

This file gives a shallow embedding, in Lean 4, of the memory subsystem of
the pyre kernel: the page-table entry representation and the depth-generic
page-table walker (`src/kernel/src/memory/paging/mod.rs` of the newest tree),
the block heap allocator (`src/kernel/src/block_malloc.rs`), and the
address-space page managers (`src/libkernel/src/memory/page_manager.rs` and
`src/kernel/src/memory/page_manager.rs`).

Machine integers (`u64`, `usize`) are embedded as `Nat`, with explicit masks
where the source relies on a fixed width.  Fallible operations return
`Option`/explicit result types; Rust panics and failed assertions are
modelled as distinguished outcomes.  Components of the repository whose
sources are not available (the frame ledger `FrameManager`, the `libsys`
address/constant helpers, the old-tree `PageTableEntry`) are modelled from
the specification, and are marked as such in their doc comments.
-/

namespace Pyre

/-! ## Architectural constants

Modelled from the spec: the `libsys` crate (not present in the sources)
provides the page size, the per-level index width and the index mask; the
spec fixes 4 KiB pages and 9 index bits per level on x86_64. -/

/-- Page size in bytes (4096). -/
def pageSize : Nat := 4096

/-- `libsys::page_shift()` (12 on x86_64). -/
def pageShift : Nat := 12

/-- `libsys::table_index_shift()` (9 bits of index per level). -/
def tableIndexShift : Nat := 9

/-- `libsys::table_index_mask()` (0x1FF). -/
def tableIndexMask : Nat := 0x1FF

/-- `libsys::table_index_size()` (512 entries per table). -/
def tableIndexSize : Nat := 512

/-! ## Page-table entries (`TableEntry`, newest tree)

Embedded from `src/src/kernel/src/memory/paging/mod.rs`, x86_64 variant.
An entry is a 64-bit word; we represent it as a `Nat` (all operations below
keep values under `2^64`). -/

namespace TableEntryFlags

/-- `PRESENT = 1 << 0`. -/
def PRESENT : Nat := 1 <<< 0

/-- `WRITABLE = 1 << 1`. -/
def WRITABLE : Nat := 1 <<< 1

/-- `USER = 1 << 2`. -/
def USER : Nat := 1 <<< 2

/-- `WRITE_THROUGH = 1 << 3`. -/
def WRITE_THROUGH : Nat := 1 <<< 3

/-- `UNCACHEABLE = 1 << 4`. -/
def UNCACHEABLE : Nat := 1 <<< 4

/-- `ACCESSED = 1 << 5`. -/
def ACCESSED : Nat := 1 <<< 5

/-- `DIRTY = 1 << 6`. -/
def DIRTY : Nat := 1 <<< 6

/-- `HUGE = 1 << 7`. -/
def HUGE : Nat := 1 <<< 7

/-- `GLOBAL = 1 << 8`. -/
def GLOBAL : Nat := 1 <<< 8

/-- `DEMAND = 1 << 9`. -/
def DEMAND : Nat := 1 <<< 9

/-- `NO_EXECUTE = 1 << 63`. -/
def NO_EXECUTE : Nat := 1 <<< 63

/-- The union of all defined flag bits; `TableEntryFlags::all()` of the
bitflags macro. -/
def ALL : Nat :=
  PRESENT ||| WRITABLE ||| USER ||| WRITE_THROUGH ||| UNCACHEABLE |||
  ACCESSED ||| DIRTY ||| HUGE ||| GLOBAL ||| DEMAND ||| NO_EXECUTE

/-- `PTE = PRESENT | WRITABLE | USER`. -/
def PTE : Nat := PRESENT ||| WRITABLE ||| USER

/-- `bitflags` `from_bits_truncate`: keep only the defined flag bits. -/
def fromBitsTruncate (x : Nat) : Nat := x &&& ALL

/-- `bitflags` `contains`: every bit of `f` is set in `x`. -/
def containsFlags (x f : Nat) : Bool := x &&& f = f

/-- A well-formed flag set: only defined flag bits are populated. -/
def ValidFlags (a : Nat) : Prop := a &&& ALL = a

end TableEntryFlags

/-- `PTE_FRAME_ADDRESS_MASK` for x86_64: `0x000FFFFF_FFFFF000`. -/
def PTE_FRAME_ADDRESS_MASK : Nat := 0x000FFFFFFFFFF000

/-- `TableEntry::FRAME_ADDRESS_SHIFT = PTE_FRAME_ADDRESS_MASK.trailing_zeros()`,
which is 12. -/
def FRAME_ADDRESS_SHIFT : Nat := 12

namespace TableEntry

/-- `TableEntry::empty()`: the all-zero entry. -/
def empty : Nat := 0

/-- `TableEntry::new(frame, attributes)`.  `frame` is given by its index
(modelled from the spec: `libsys` frame addresses are identified by an
integer index; `frame.index()` is that index). -/
def new (frame attributes : Nat) : Nat :=
  (frame <<< FRAME_ADDRESS_SHIFT) ||| attributes

/-- `TableEntry::get_frame()`, returning the frame's index: the source masks
the raw entry with `PTE_FRAME_ADDRESS_MASK` and rebuilds the frame address
from it (`Address::new_truncate`), whose index drops the low 12 bits. -/
def get_frame (e : Nat) : Nat :=
  (e &&& PTE_FRAME_ADDRESS_MASK) >>> FRAME_ADDRESS_SHIFT

/-- `TableEntry::get_attributes()` = `from_bits_truncate(self.0)`. -/
def get_attributes (e : Nat) : Nat :=
  TableEntryFlags.fromBitsTruncate e

/-- `TableEntry::is_present()`. -/
def is_present (e : Nat) : Bool :=
  TableEntryFlags.containsFlags (get_attributes e) TableEntryFlags.PRESENT

/-- `TableEntry::is_huge()`. -/
def is_huge (e : Nat) : Bool :=
  TableEntryFlags.containsFlags (get_attributes e) TableEntryFlags.HUGE

end TableEntry

/-! ## The page-table walker (`TableEntryCell`)

Embedded from `src/src/kernel/src/memory/paging/mod.rs`.  Physical memory
holding the page tables is modelled as a function `mem : Nat → Nat → Nat`
from a table's frame index and an entry index to the 64-bit entry stored
there (the source reaches the table through the higher-half direct map,
`Hhdm::offset(frame)`).  A page is identified by its raw virtual address. -/

/-- The entry-index extraction of `get_sub_entry_ptr`:
`(page >> ((depth - 1) * table_index_shift) >> page_shift) & table_index_mask`. -/
def entryIndex (page depth : Nat) : Nat :=
  ((page >>> ((depth - 1) * tableIndexShift)) >>> pageShift) &&& tableIndexMask

/-- Outcome of a table walk.  `ok` carries the entry handed to `with_fn`
(we instantiate `with_fn` with the function returning the entry value).
`invalidWalk` models the `panic!` arm of the source's match (reached only
when the walk is started below the requested stop depth). -/
inductive WalkOut where
  | ok (e : Nat)
  | notMapped
  | hugePage
  | allocError
  | invalidWalk
  deriving DecidableEq

/-- `TableEntryCell::with_entry` (and the identical-logic `with_entry_mut`):
read-only descent from a cell at `depth` holding `entry`.  The source
compares `depth` with `to_depth`: equal returns the entry; greater and not
huge reads the sub-entry and recurses if it is present, else `NotMapped`;
greater and huge returns `HugePage`; less panics. -/
def withEntry (mem : Nat → Nat → Nat) (page toDepth : Nat) : Nat → Nat → WalkOut
  | 0, entry =>
    if 0 = toDepth then .ok entry else .invalidWalk
  | depth + 1, entry =>
    if depth + 1 = toDepth then .ok entry
    else if toDepth < depth + 1 then
      if TableEntry.is_huge entry then .hugePage
      else
        let sub := mem (TableEntry.get_frame entry) (entryIndex page (depth + 1))
        if TableEntry.is_present sub then withEntry mem page toDepth depth sub
        else .notMapped
    else .invalidWalk

/-- Auxiliary for `entryAt`: the entry reached after `g` descent steps from
the root cell (which sits at depth `D` and holds `root`). -/
def entryAtAux (mem : Nat → Nat → Nat) (page root D : Nat) : Nat → Nat
  | 0 => root
  | g + 1 => mem (TableEntry.get_frame (entryAtAux mem page root D g)) (entryIndex page (D - g))

/-- The entry sitting at depth `d` on the walk path of `page`, for a root
cell at depth `D` holding `root` (for `d ≥ D` this is the root itself). -/
def entryAt (mem : Nat → Nat → Nat) (page root D d : Nat) : Nat :=
  entryAtAux mem page root D (D - d)

/-! ### The creating walker (`with_entry_create`)

`with_entry_create` mutates entries in place and allocates frames from the
physical memory manager (`PMM.next_frame`).  We model the mutable state as
table memory plus the root cell's own entry, and the frame allocator as the
list of frames it will hand out, in order (empty list = exhausted). -/

/-- Mutable walker state: the table memory, the root cell's entry, and the
frames the physical-memory manager will hand out next. -/
structure CreateState where
  mem : Nat → Nat → Nat
  root : Nat
  free : List Nat

/-- The location of an entry a cell borrows mutably: either the root cell's
own entry (`none`) or a slot `(frame, index)` of a table in memory. -/
abbrev TableLoc : Type := Option (Nat × Nat)

/-- Read the entry at a location. -/
def readLoc (s : CreateState) : TableLoc → Nat
  | Option.none => s.root
  | Option.some (f, i) => s.mem f i

/-- Write the entry at a location. -/
def writeLoc (s : CreateState) (l : TableLoc) (v : Nat) : CreateState :=
  match l with
  | Option.none => { s with root := v }
  | Option.some (f, i) =>
    { s with mem := fun f' i' => if f' = f ∧ i' = i then v else s.mem f' i' }

/-- Zero-fill a frame's contents
(`core::ptr::write_bytes(Hhdm::offset(frame), 0x0, page_size())`). -/
def zeroFrame (s : CreateState) (F : Nat) : CreateState :=
  { s with mem := fun f i => if f = F then 0 else s.mem f i }

/-- The flags installed on a demand-created entry: `TableEntryFlags::PTE`,
with `USER` inserted when the cell is not at the minimum depth. -/
def createFlags (depth : Nat) : Nat :=
  if depth ≠ 0 then TableEntryFlags.PTE ||| TableEntryFlags.USER
  else TableEntryFlags.PTE

/-- The non-present branch of `with_entry_create`: pop the allocator's next
frame `F`, zero-fill `F`'s contents, then install `TableEntry::new(F, flags)`
into the cell's entry at `loc` (`rest` is the allocator's remaining list). -/
def installEntry (s : CreateState) (loc : TableLoc) (F depth : Nat) (rest : List Nat) :
    CreateState :=
  writeLoc (zeroFrame { mem := s.mem, root := s.root, free := rest } F) loc
    (TableEntry.new F (createFlags depth))

/-- `TableEntryCell::with_entry_create`: descent identical to `with_entry`,
but an absent entry above the stop depth triggers `installEntry` (returning
`allocError` when the allocator list is empty) before continuing into the
sub-table addressed by the just-installed entry's frame. -/
def withEntryCreate (page toDepth : Nat) : Nat → CreateState → TableLoc → WalkOut × CreateState
  | 0, s, loc =>
    if 0 = toDepth then (.ok (readLoc s loc), s) else (.invalidWalk, s)
  | depth + 1, s, loc =>
    if depth + 1 = toDepth then (.ok (readLoc s loc), s)
    else if toDepth < depth + 1 then
      if TableEntry.is_huge (readLoc s loc) then (.hugePage, s)
      else if TableEntry.is_present (readLoc s loc) then
        withEntryCreate page toDepth depth s
          (Option.some (TableEntry.get_frame (readLoc s loc), entryIndex page (depth + 1)))
      else
        match s.free with
        | [] => (.allocError, s)
        | F :: rest =>
          withEntryCreate page toDepth depth (installEntry s loc F (depth + 1) rest)
            (Option.some (TableEntry.get_frame (TableEntry.new F (createFlags (depth + 1))),
              entryIndex page (depth + 1)))
    else (.invalidWalk, s)

/-- A freshly created address space: the root table's frame is zero-filled
(root entry 0), no table memory is populated, and the physical-memory
manager will hand out the frames in `fr`. -/
def freshCreateState (fr : List Nat) : CreateState :=
  { mem := fun _ _ => 0, root := 0, free := fr }

/-! ## The block heap allocator (`BlockAllocator`)

Embedded from `src/kernel/src/block_malloc.rs`.  The block-page map is a
list of 64-bit words, one word per heap-backing page, one bit per 64-byte
block.  The mapping/unmapping of backing pages through the addressor and
the frame ledger is recorded as the list of page indices mapped (in
`blockAlloc`) or unmapped-and-freed (in `blockDealloc`).  Failed `assert`s
and the out-of-range mask index (`U64_BIT_MASKS[bit_count - 1]` with
`bit_count = 0`) are modelled as `Option.none`; the retry loop of `alloc`
carries explicit fuel. -/

/-- `u64::MAX`. -/
def U64MAX : Nat := 2 ^ 64 - 1

/-- `BlockAllocator::BLOCK_SIZE = 0x1000 / 64 = 64` bytes. -/
def BLOCK_SIZE : Nat := 64

/-- `BlockPage::BLOCKS_PER = 64` blocks (bits) per BlockPage. -/
def BLOCKS_PER : Nat := 64

/-- `BLOCKS_PER_MAP_PAGE = 8 * 0x1000` map bits per map page. -/
def BLOCKS_PER_MAP_PAGE : Nat := 8 * 0x1000

/-- `libkernel::align_up_div(a, b) = ceil(a / b)` (the crate root of
`libkernel` is not in the sources; the formula matches the inlined
`(layout.size() + (BLOCK_SIZE - 1)) / BLOCK_SIZE` of `alloc`). -/
def alignUpDiv (a b : Nat) : Nat := (a + b - 1) / b

/-- Doubling helper for `nextPow2` (fuel-bounded; `n` doublings of 1 always
suffice to reach `n`). -/
def nextPow2Aux (n : Nat) : Nat → Nat → Nat
  | 0, p => p
  | fuel + 1, p => if n ≤ p then p else nextPow2Aux n fuel (2 * p)

/-- `usize::next_power_of_two`: the smallest power of two `≥ n` (1 for 0). -/
def nextPow2 (n : Nat) : Nat := nextPow2Aux n n 1

/-- The inner bit loop of `alloc`'s scan over one non-full BlockPage word
`w` (`cnt` bits remain; the bit examined next is `shift`): a set bit resets
the run; a clear bit extends a running run, or starts one at a block index
aligned to `al`; the loop breaks as soon as the run reaches `sz`.  Returns
`(found, block_index, current_run)`. -/
def scanWordAux (w al sz : Nat) : Nat → Nat → Nat → Nat → Bool × Nat × Nat
  | 0, _, b, r => (false, b, r)
  | cnt + 1, shift, b, r =>
    let r1 := if w.testBit shift then 0
      else if 0 < r ∨ b % al = 0 then r + 1 else r
    if r1 = sz then (true, b + 1, r1)
    else scanWordAux w al sz cnt (shift + 1) (b + 1) r1

/-- The scan of `alloc` over the BlockPage map: a full word resets the run
and skips 64 block indices; otherwise the bits are scanned. -/
def scanMap (al sz : Nat) : List Nat → Nat → Nat → Bool × Nat × Nat
  | [], b, r => (false, b, r)
  | w :: ws, b, r =>
    if w = U64MAX then scanMap al sz ws (b + BLOCKS_PER) 0
    else
      match scanWordAux w al sz 64 0 b r with
      | (true, b1, r1) => (true, b1, r1)
      | (false, b1, r1) => scanMap al sz ws b1 r1

/-- `BlockAllocator::grow(required_blocks)`: asserts `required_blocks > 0`
(modelled as `none`), computes the next-power-of-two number of map pages,
and exposes the new map region zero-filled past the old length.  (The
mapping of the map's own metadata pages at `ALLOCATOR_BASE` has no effect
on the block-page words and is not tracked.) -/
def grow (m : List Nat) (requiredBlocks : Nat) : Option (List Nat) :=
  if requiredBlocks = 0 then Option.none
  else
    let curPageOffset := m.length * BLOCKS_PER / BLOCKS_PER_MAP_PAGE
    let newPageOffset :=
      nextPow2 (curPageOffset + alignUpDiv requiredBlocks BLOCKS_PER_MAP_PAGE)
    let newLen := newPageOffset * 512
    Option.some (m ++ List.replicate (newLen - m.length) 0)

/-- The scan-or-grow loop of `alloc`: rescan from scratch, growing the map
while no run of `sz` free blocks is found.  Returns the (possibly grown)
map, `start_block_index = block_index - current_run` and
`end_block_index = block_index`. -/
def allocLoop (al sz : Nat) : Nat → List Nat → Option (List Nat × Nat × Nat)
  | 0, _ => Option.none
  | fuel + 1, m =>
    if (scanMap al sz m 0 0).2.2 < sz then
      match grow m sz with
      | Option.none => Option.none
      | Option.some m1 => allocLoop al sz fuel m1
    else
      Option.some (m, (scanMap al sz m 0 0).2.1 - (scanMap al sz m 0 0).2.2,
        (scanMap al sz m 0 0).2.1)

/-- `BlockAllocator::calculate_bit_fields(map_index, end_block_index,
block_index)`: bit count `min(64, remaining) - bit_offset` and the mask of
that many one bits shifted to the offset (`U64_BIT_MASKS[bit_count - 1] <<
bit_offset`; the `U64_BIT_MASKS` table of `libkernel` is not in the
sources, modelled from its use as a table of all-ones masks,
`U64_BIT_MASKS[k] = 2^(k+1) - 1`). -/
def calculate_bit_fields (mapIndex endBlockIndex blockIndex : Nat) : Nat × Nat :=
  (min BLOCKS_PER (endBlockIndex - mapIndex * BLOCKS_PER)
      - (blockIndex - mapIndex * BLOCKS_PER),
    (2 ^ (min BLOCKS_PER (endBlockIndex - mapIndex * BLOCKS_PER)
      - (blockIndex - mapIndex * BLOCKS_PER)) - 1)
      <<< (blockIndex - mapIndex * BLOCKS_PER))

/-- The commit loop of `alloc` over map indices `i, i+1, ...` (`c` of them,
stopping early when the map iterator is exhausted): computes
`calculate_bit_fields`, asserts the targeted bits are clear, sets them, and
records the map index when the word went from zero to non-zero (that page
is demand-mapped and zeroed).  `b` is the running `block_index`, `e` the
`end_block_index`.  A zero bit count is the source's out-of-range
`U64_BIT_MASKS[bit_count - 1]` access, modelled as `none`. -/
def allocCommit : List Nat → Nat → Nat → Nat → Nat → Option (List Nat × List Nat)
  | m, 0, _, _, _ => Option.some (m, [])
  | m, c + 1, i, b, e =>
    match m[i]? with
    | Option.none => Option.some (m, [])
    | Option.some w =>
      if (calculate_bit_fields i e b).1 = 0 then Option.none
      else if w &&& (calculate_bit_fields i e b).2 ≠ 0 then Option.none
      else
        match allocCommit (m.set i (w ||| (calculate_bit_fields i e b).2)) c (i + 1)
            (b + (calculate_bit_fields i e b).1) e with
        | Option.none => Option.none
        | Option.some (m2, pages) =>
          Option.some (m2,
            (if w = 0 ∧ w ||| (calculate_bit_fields i e b).2 ≠ 0 then [i] else []) ++ pages)

/-- The commit loop of `dealloc`: asserts the targeted bits are all set,
clears them (`^=`), and records the map index when the word went from
non-zero to zero (that page is unmapped and its frame freed). -/
def deallocCommit : List Nat → Nat → Nat → Nat → Nat → Option (List Nat × List Nat)
  | m, 0, _, _, _ => Option.some (m, [])
  | m, c + 1, i, b, e =>
    match m[i]? with
    | Option.none => Option.some (m, [])
    | Option.some w =>
      if (calculate_bit_fields i e b).1 = 0 then Option.none
      else if w &&& (calculate_bit_fields i e b).2 ≠ (calculate_bit_fields i e b).2 then
        Option.none
      else
        match deallocCommit (m.set i (w ^^^ (calculate_bit_fields i e b).2)) c (i + 1)
            (b + (calculate_bit_fields i e b).1) e with
        | Option.none => Option.none
        | Option.some (m2, pages) =>
          Option.some (m2,
            (if w ≠ 0 ∧ w ^^^ (calculate_bit_fields i e b).2 = 0 then [i] else []) ++ pages)

/-- The effective alignment of `alloc`: the requested alignment when it is
a multiple of the block size, otherwise silently the block size. -/
def effectiveAlign (align : Nat) : Nat :=
  if align &&& (BLOCK_SIZE - 1) = 0 then align else BLOCK_SIZE

/-- `BlockAllocator::alloc(layout)`, for `layout = (size, align)`: block
count `ceil(size / 64)`, effective alignment, scan-or-grow loop, then the
commit loop; returns `(ptr, map, newly mapped pages)`. -/
def blockAlloc (fuel : Nat) (m : List Nat) (size align : Nat) :
    Option (Nat × List Nat × List Nat) :=
  match allocLoop (effectiveAlign align) ((size + (BLOCK_SIZE - 1)) / BLOCK_SIZE) fuel m with
  | Option.none => Option.none
  | Option.some (m1, start, endB) =>
    match allocCommit m1 (alignUpDiv endB BLOCKS_PER - start / BLOCKS_PER)
        (start / BLOCKS_PER) start endB with
    | Option.none => Option.none
    | Option.some (m2, mapped) => Option.some (start * BLOCK_SIZE, m2, mapped)

/-- `BlockAllocator::dealloc(ptr, size)`: block range from the pointer
offset, then the clearing commit loop; returns `(map, unmapped-and-freed
pages)`. -/
def blockDealloc (m : List Nat) (ptr size : Nat) : Option (List Nat × List Nat) :=
  deallocCommit m
    (alignUpDiv (ptr / BLOCK_SIZE + alignUpDiv size BLOCK_SIZE) BLOCKS_PER
      - ptr / BLOCK_SIZE / BLOCKS_PER)
    (ptr / BLOCK_SIZE / BLOCKS_PER) (ptr / BLOCK_SIZE)
    (ptr / BLOCK_SIZE + alignUpDiv size BLOCK_SIZE)

/-! ## The address-space page managers

Embedded from `src/libkernel/src/memory/page_manager.rs` (ownership-based
API) and `src/kernel/src/memory/page_manager.rs` (boolean `lock_frame` /
`free_frame` API).  The frame ledger (`FrameManager`) and the old-tree
`PageTableEntry` / `PageTable` types are not in the sources; they are
modelled from the spec as noted below. -/

/-- Modelled from the spec: the Frame Ledger's per-frame state
(`Free`, `Locked`, `Borrowed(n≥1)`, `Reserved`, `MMIO`). -/
inductive FrameState where
  | Free
  | Locked
  | Borrowed (n : Nat)
  | Reserved
  | MMIO
  deriving DecidableEq

/-- Modelled from the spec: the ledger's typed errors. -/
inductive FrameError where
  | IndexOutOfRange
  | AlreadyLocked
  | AlreadyBorrowed
  | NotLocked
  | NotBorrowed
  deriving DecidableEq

/-- Modelled from the spec: `FrameManager::lock(index)` — transitions a
`Free` frame to `Locked`, returning the index; a typed error otherwise. -/
def fmLock (fm : List FrameState) (i : Nat) : Except FrameError Nat × List FrameState :=
  match fm[i]? with
  | Option.none => (.error .IndexOutOfRange, fm)
  | Option.some .Free => (.ok i, fm.set i .Locked)
  | Option.some (.Borrowed _) => (.error .AlreadyBorrowed, fm)
  | Option.some _ => (.error .AlreadyLocked, fm)

/-- Modelled from the spec: `FrameManager::free(index)` — transitions a
`Locked` frame to `Free`; `NotLocked`/`IndexOutOfRange` otherwise. -/
def fmFree (fm : List FrameState) (i : Nat) : Except FrameError Unit × List FrameState :=
  match fm[i]? with
  | Option.none => (.error .IndexOutOfRange, fm)
  | Option.some .Locked => (.ok (), fm.set i .Free)
  | Option.some _ => (.error .NotLocked, fm)

/-- Modelled from the spec: `FrameManager::borrow(index)` — `Free` becomes
`Borrowed(1)`, `Borrowed(n)` becomes `Borrowed(n+1)`. -/
def fmBorrow (fm : List FrameState) (i : Nat) : Except FrameError Nat × List FrameState :=
  match fm[i]? with
  | Option.none => (.error .IndexOutOfRange, fm)
  | Option.some .Free => (.ok i, fm.set i (.Borrowed 1))
  | Option.some (.Borrowed n) => (.ok i, fm.set i (.Borrowed (n + 1)))
  | Option.some _ => (.error .AlreadyLocked, fm)

/-- Modelled from the spec: `FrameManager::drop(index)` — `Borrowed(n+1)`
becomes `Borrowed(n)` and `Borrowed(1)` becomes `Free`. -/
def fmDrop (fm : List FrameState) (i : Nat) : Except FrameError Unit × List FrameState :=
  match fm[i]? with
  | Option.none => (.error .IndexOutOfRange, fm)
  | Option.some (.Borrowed 1) => (.ok (), fm.set i .Free)
  | Option.some (.Borrowed (n + 1)) => (.ok (), fm.set i (.Borrowed (n + 1 - 1)))
  | Option.some _ => (.error .NotBorrowed, fm)

/-- `PageAttributes::PRESENT` (`VALID` is its cross-architecture alias in
the kernel crate). -/
def PM_PRESENT : Nat := 1

/-- Modelled from the spec: a PTE is a record of present flag (attribute
bit 0), frame index, and attribute bits; the old-tree `PageTableEntry`
sources are absent. -/
structure PageTableEntry where
  frame : Nat
  attribs : Nat
  deriving DecidableEq

/-- `bitflags` removal (`AttributeModify::Remove`): clear the bits of `m`
in `a` (`a & !m`). -/
def removeBits (a m : Nat) : Nat := a ^^^ (a &&& m)

/-- Modelled from the spec: the libkernel `PageTableEntry::get_frame_index`
returns `Option<usize>`; per the invariant "a non-present entry's frame
field is ignored by all consumers", it is `None` on a non-present entry. -/
def lkGetFrameIndex (e : PageTableEntry) : Option Nat :=
  if e.attribs &&& PM_PRESENT = PM_PRESENT then Option.some e.frame else Option.none

/-- Mapper errors (`MapError` of both page managers). -/
inductive MapError where
  | NotMapped
  | AlreadyMapped
  | FrameError (e : FrameError)
  deriving DecidableEq

/-- Outcome of a mapper call; `fatal` models a Rust `unwrap()` of an
errored ledger call inside the operation. -/
inductive MapOut where
  | ok
  | er (e : MapError)
  | fatal
  deriving DecidableEq

/-- `FrameOwnership` of the libkernel page manager. -/
inductive FrameOwnership where
  | None
  | Borrowed
  | Locked
  deriving DecidableEq

/-- State of one address-space mapper over the shared ledger.  The chain of
`sub_table` walks (`p4 → p3 → p2 → p1`, absent when an intermediate entry
is missing) is modelled from the spec as a partial map from page index to
the leaf entry; the old-tree `PageTable` sources are absent. -/
structure LPMState where
  table : Nat → Option PageTableEntry
  frames : List FrameState

/-- Pointwise update of the page-to-entry map. -/
def tableSet (t : Nat → Option PageTableEntry) (p : Nat) (e : PageTableEntry) :
    Nat → Option PageTableEntry :=
  fun q => if q = p then Option.some e else t q

/-- `PageManager::map` (libkernel): resolve the ownership against the
ledger, then install `entry.set(frame_index, attribs)` through
`get_page_entry_create`; a ledger failure surfaces as
`MapError::FrameError`. -/
def lpmMap (s : LPMState) (p f : Nat) (own : FrameOwnership) (attribs : Nat) :
    MapOut × LPMState :=
  match (match own with
    | FrameOwnership.None => (Except.ok f, s.frames)
    | FrameOwnership.Borrowed => fmBorrow s.frames f
    | FrameOwnership.Locked => fmLock s.frames f) with
  | (Except.error e, fm) => (.er (.FrameError e), { s with frames := fm })
  | (Except.ok f1, fm) =>
    (.ok, { table := tableSet s.table p { frame := f1, attribs := attribs },
            frames := fm })

/-- `PageManager::unmap` (libkernel): clear `PRESENT`, then release the
frame per the ownership (`free` if `Locked`, `drop` if `Borrowed`, no-op if
`None`; the frame index is `take`n out of the entry — read and cleared —
and the ledger result is `unwrap`ped). -/
def lpmUnmap (s : LPMState) (p : Nat) (own : FrameOwnership) : MapOut × LPMState :=
  match s.table p with
  | Option.none => (.er .NotMapped, s)
  | Option.some e =>
    match own with
    | FrameOwnership.None =>
      let e1 : PageTableEntry := { e with attribs := removeBits e.attribs PM_PRESENT }
      (.ok, { s with table := tableSet s.table p e1 })
    | FrameOwnership.Borrowed =>
      match fmDrop s.frames e.frame with
      | (Except.error _, _) => (.fatal, s)
      | (Except.ok _, fm) =>
        (.ok, { table := tableSet s.table p
                  { frame := 0, attribs := removeBits e.attribs PM_PRESENT },
                frames := fm })
    | FrameOwnership.Locked =>
      match fmFree s.frames e.frame with
      | (Except.error _, _) => (.fatal, s)
      | (Except.ok _, fm) =>
        (.ok, { table := tableSet s.table p
                  { frame := 0, attribs := removeBits e.attribs PM_PRESENT },
                frames := fm })

/-- `PageManager::is_mapped` (libkernel): the leaf entry exists and its
attributes contain `PRESENT`. -/
def lpmIsMapped (s : LPMState) (p : Nat) : Bool :=
  match s.table p with
  | Option.some e => e.attribs &&& PM_PRESENT = PM_PRESENT
  | Option.none => false

/-- `PageManager::get_mapped_to` (libkernel):
`get_page_entry(page).and_then(get_frame_index)`. -/
def lpmGetMappedTo (s : LPMState) (p : Nat) : Option Nat :=
  (s.table p).bind lkGetFrameIndex

/-- State of the kernel-crate page manager (same shape). -/
structure KPMState where
  table : Nat → Option PageTableEntry
  frames : List FrameState

/-- `PageManager::map` (kernel crate): optionally `lock` the frame, then
`entry.set_frame_index(frame_index); entry.set_attributes(attributes, Set)`
through `get_page_entry_create`. -/
def kpmMap (s : KPMState) (p f : Nat) (lockFrame : Bool) (attribs : Nat) :
    MapOut × KPMState :=
  match (if lockFrame then fmLock s.frames f else (Except.ok f, s.frames)) with
  | (Except.error e, fm) => (.er (.FrameError e), { s with frames := fm })
  | (Except.ok f1, fm) =>
    (.ok, { table := tableSet s.table p { frame := f1, attribs := attribs },
            frames := fm })

/-- `PageManager::unmap` (kernel crate): clear `VALID`; when `free_frame`,
`free(entry.take_frame_index())` (the `take` reads the frame index and
clears the field, per the spec's "reads and clears" description of entry
relocation, and the ledger result is `unwrap`ped). -/
def kpmUnmap (s : KPMState) (p : Nat) (freeFrame : Bool) : MapOut × KPMState :=
  match s.table p with
  | Option.none => (.er .NotMapped, s)
  | Option.some e =>
    if freeFrame then
      match fmFree s.frames e.frame with
      | (Except.error _, _) => (.fatal, s)
      | (Except.ok _, fm) =>
        (.ok, { table := tableSet s.table p
                  { frame := 0, attribs := removeBits e.attribs PM_PRESENT },
                frames := fm })
    else
      let e1 : PageTableEntry := { e with attribs := removeBits e.attribs PM_PRESENT }
      (.ok, { s with table := tableSet s.table p e1 })

/-- `PageManager::is_mapped` (kernel crate). -/
def kpmIsMapped (s : KPMState) (p : Nat) : Bool :=
  match s.table p with
  | Option.some e => e.attribs &&& PM_PRESENT = PM_PRESENT
  | Option.none => false

/-- `PageManager::get_mapped_to` (kernel crate):
`get_page_entry(page).map(|entry| entry.get_frame_index())` — the raw frame
field, with no presence filter (`get_frame_index` returns a plain `usize`
in this crate). -/
def kpmGetMappedTo (s : KPMState) (p : Nat) : Option Nat :=
  (s.table p).map (fun e => e.frame)


/-! ## Theorems -/

/-! ### Bit-level facts about the entry representation -/

theorem mask_eq_shifted : PTE_FRAME_ADDRESS_MASK = (2 ^ 40 - 1) <<< 12 := by
  decide

theorem all_flags_eq : TableEntryFlags.ALL = (2 ^ 10 - 1) ||| 2 ^ 63 := by
  decide

theorem all_flags_testBit (i : Nat) :
    TableEntryFlags.ALL.testBit i = (decide (i < 10) || decide (i = 63)) := by
  rw [all_flags_eq]
  simp only [Nat.testBit_or, Nat.testBit_two_pow_sub_one, Nat.testBit_two_pow]
  by_cases h : i = 63 <;> simp [h, eq_comm]

theorem validFlags_testBit_false {a i : Nat} (ha : TableEntryFlags.ValidFlags a)
    (h10 : 10 ≤ i) (h63 : i ≠ 63) : a.testBit i = false := by
  conv_lhs => rw [← ha]
  rw [Nat.testBit_and, all_flags_testBit]
  simp only [Bool.and_eq_false_iff, Bool.or_eq_false_iff, decide_eq_false_iff_not]
  right
  exact ⟨by omega, h63⟩

theorem new_and_mask {f a : Nat} (hf : f < 2 ^ 40) (ha : TableEntryFlags.ValidFlags a) :
    ((f <<< 12) ||| a) &&& PTE_FRAME_ADDRESS_MASK = f <<< 12 := by
  apply Nat.eq_of_testBit_eq
  intro i
  rw [mask_eq_shifted]
  simp only [Nat.testBit_and, Nat.testBit_or, Nat.testBit_shiftLeft,
    Nat.testBit_two_pow_sub_one]
  by_cases h12 : 12 ≤ i
  · by_cases h52 : i < 52
    · have ha' : a.testBit i = false := validFlags_testBit_false ha (by omega) (by omega)
      simp [h12, ha', show i - 12 < 40 by omega]
    · have hf' : f.testBit (i - 12) = false :=
        Nat.testBit_lt_two_pow (lt_of_lt_of_le hf (Nat.pow_le_pow_right (by omega) (by omega)))
      simp [h12, hf', show ¬(i - 12 < 40) by omega]
  · simp [h12]

theorem new_and_all {f a : Nat} (hf : f < 2 ^ 40) (ha : TableEntryFlags.ValidFlags a) :
    ((f <<< 12) ||| a) &&& TableEntryFlags.ALL = a := by
  apply Nat.eq_of_testBit_eq
  intro i
  simp only [Nat.testBit_and, Nat.testBit_or, Nat.testBit_shiftLeft, all_flags_testBit]
  by_cases h10 : i < 10
  · simp [show ¬(12 ≤ i) by omega, h10]
  · by_cases h63 : i = 63
    · subst h63
      have hf' : f.testBit 51 = false :=
        Nat.testBit_lt_two_pow (lt_of_lt_of_le hf (Nat.pow_le_pow_right (by omega) (by omega)))
      simp [hf']
    · have ha' : a.testBit i = false := validFlags_testBit_false ha (by omega) h63
      simp [h10, h63, ha']

theorem shiftLeft_shiftRight_cancel (f : Nat) : (f <<< 12) >>> 12 = f := by
  rw [Nat.shiftLeft_eq, Nat.shiftRight_eq_div_pow]
  simp

/-- C10: constructing a page-table entry and reading it back is a round trip:
for every frame index `f` whose address bits lie within
`PTE_FRAME_ADDRESS_MASK` (that is, `f < 2^40`) and every well-formed flag set
`a`, `TableEntry::new(f, a).get_frame() = f` and
`TableEntry::new(f, a).get_attributes() = a`; and `TableEntry::empty()` has
frame 0, no attributes, and is neither present nor huge. -/
theorem tableEntry_roundtrip :
    (∀ f a, f < 2 ^ 40 → TableEntryFlags.ValidFlags a →
      TableEntry.get_frame (TableEntry.new f a) = f ∧
      TableEntry.get_attributes (TableEntry.new f a) = a) ∧
    TableEntry.get_frame TableEntry.empty = 0 ∧
    TableEntry.get_attributes TableEntry.empty = 0 ∧
    TableEntry.is_present TableEntry.empty = false ∧
    TableEntry.is_huge TableEntry.empty = false := by
  refine ⟨fun f a hf ha => ⟨?_, ?_⟩, by decide, by decide, by decide, by decide⟩
  · unfold TableEntry.get_frame TableEntry.new FRAME_ADDRESS_SHIFT
    rw [new_and_mask hf ha, shiftLeft_shiftRight_cancel]
  · unfold TableEntry.get_attributes TableEntry.new TableEntryFlags.fromBitsTruncate
      FRAME_ADDRESS_SHIFT
    exact new_and_all hf ha

/-- Witness for C10 at concrete inputs: frame 3, flags `PRESENT | WRITABLE`. -/
theorem tableEntry_roundtrip_witness :
    TableEntry.get_frame (TableEntry.new 3 3) = 3 ∧
    TableEntry.get_attributes (TableEntry.new 3 3) = 3 :=
  tableEntry_roundtrip.1 3 3 (by decide)
    (show 3 &&& TableEntryFlags.ALL = 3 by decide)

theorem entryAt_top (mem : Nat → Nat → Nat) (page root D : Nat) :
    entryAt mem page root D D = root := by
  simp [entryAt, entryAtAux]

theorem entryAt_step (mem : Nat → Nat → Nat) (page root D d : Nat) (h : d < D) :
    entryAt mem page root D d =
      mem (TableEntry.get_frame (entryAt mem page root D (d + 1))) (entryIndex page (d + 1)) := by
  unfold entryAt
  have h1 : D - d = (D - (d + 1)) + 1 := by omega
  rw [h1]
  have h2 : D - (D - (d + 1)) = d + 1 := by omega
  rw [entryAtAux, h2]

theorem withEntry_stop (mem : Nat → Nat → Nat) (page t e : Nat) :
    withEntry mem page t t e = .ok e := by
  cases t <;> simp [withEntry]

theorem withEntry_ok_of_path (mem : Nat → Nat → Nat) (page root D toDepth : Nat) :
    ∀ (n d : Nat), d = toDepth + n → d ≤ D →
      (∀ k, toDepth ≤ k → k < d → TableEntry.is_present (entryAt mem page root D k) = true) →
      (∀ k, toDepth < k → k ≤ d → TableEntry.is_huge (entryAt mem page root D k) = false) →
      withEntry mem page toDepth d (entryAt mem page root D d) =
        .ok (entryAt mem page root D toDepth) := by
  intro n
  induction n with
  | zero =>
    intro d hd _ _ _
    subst hd
    simp [withEntry_stop]
  | succ n ih =>
    intro d hd hD hpres hhuge
    obtain ⟨d', rfl⟩ : ∃ d', d = d' + 1 := ⟨toDepth + n, by omega⟩
    rw [withEntry]
    rw [if_neg (by omega), if_pos (by omega)]
    rw [hhuge (d' + 1) (by omega) (by omega)]
    simp only [Bool.false_eq_true, if_false]
    rw [← entryAt_step mem page root D d' (by omega)]
    rw [hpres d' (by omega) (by omega)]
    simp only [if_true]
    exact ih d' (by omega) (by omega) (fun k h1 h2 => hpres k h1 (by omega))
      (fun k h1 h2 => hhuge k h1 (by omega))

theorem withEntry_notMapped_of_absent (mem : Nat → Nat → Nat) (page root D toDepth d0 : Nat)
    (habs : TableEntry.is_present (entryAt mem page root D d0) = false)
    (ht : toDepth ≤ d0) :
    ∀ (n d : Nat), d = d0 + 1 + n → d ≤ D →
      (∀ k, d0 < k → k < d → TableEntry.is_present (entryAt mem page root D k) = true) →
      (∀ k, d0 < k → k ≤ d → TableEntry.is_huge (entryAt mem page root D k) = false) →
      withEntry mem page toDepth d (entryAt mem page root D d) = .notMapped := by
  intro n
  induction n with
  | zero =>
    intro d hd hD _ hhuge
    obtain rfl : d = d0 + 1 := by omega
    rw [withEntry]
    rw [if_neg (by omega), if_pos (by omega)]
    rw [hhuge (d0 + 1) (by omega) (by omega)]
    simp only [Bool.false_eq_true, if_false]
    rw [← entryAt_step mem page root D d0 (by omega), habs]
    simp
  | succ n ih =>
    intro d hd hD hpres hhuge
    obtain ⟨d', rfl⟩ : ∃ d', d = d' + 1 := ⟨d0 + n + 1, by omega⟩
    rw [withEntry]
    rw [if_neg (by omega), if_pos (by omega)]
    rw [hhuge (d' + 1) (by omega) (by omega)]
    simp only [Bool.false_eq_true, if_false]
    rw [← entryAt_step mem page root D d' (by omega)]
    rw [hpres d' (by omega) (by omega)]
    simp only [if_true]
    exact ih d' (by omega) (by omega) (fun k h1 h2 => hpres k h1 (by omega))
      (fun k h1 h2 => hhuge k h1 (by omega))

theorem withEntry_huge_of_huge (mem : Nat → Nat → Nat) (page root D toDepth h : Nat)
    (hhug : TableEntry.is_huge (entryAt mem page root D h) = true)
    (ht : toDepth < h) :
    ∀ (n d : Nat), d = h + n → d ≤ D →
      (∀ k, h ≤ k → k < d → TableEntry.is_present (entryAt mem page root D k) = true) →
      (∀ k, h < k → k ≤ d → TableEntry.is_huge (entryAt mem page root D k) = false) →
      withEntry mem page toDepth d (entryAt mem page root D d) = .hugePage := by
  intro n
  induction n with
  | zero =>
    intro d hd hD _ _
    obtain ⟨h', rfl⟩ : ∃ h', h = h' + 1 := ⟨h - 1, by omega⟩
    obtain rfl : d = h' + 1 := by omega
    rw [withEntry]
    rw [if_neg (by omega), if_pos (by omega), hhug]
    simp
  | succ n ih =>
    intro d hd hD hpres hhuge
    obtain ⟨d', rfl⟩ : ∃ d', d = d' + 1 := ⟨h + n, by omega⟩
    rw [withEntry]
    rw [if_neg (by omega), if_pos (by omega)]
    rw [hhuge (d' + 1) (by omega) (by omega)]
    simp only [Bool.false_eq_true, if_false]
    rw [← entryAt_step mem page root D d' (by omega)]
    rw [hpres d' (by omega) (by omega)]
    simp only [if_true]
    exact ih d' (by omega) (by omega) (fun k h1 h2 => hpres k h1 (by omega))
      (fun k h1 h2 => hhuge k h1 (by omega))

/-- C4: the read walk (`with_entry`, and the identical `with_entry_mut`)
from a root cell at depth `D` holding `root`: (1) when every entry on the
path down to the stop depth is present and no entry above the stop depth is
huge, it returns the entry at the stop depth; (2) it returns `NotMapped` as
soon as an entry on the path is absent (all entries above it present, none
huge); (3) it returns `HugePage` when a present entry above the stop depth
is flagged huge (all entries above it present and non-huge). -/
theorem walker_read_characterization (mem : Nat → Nat → Nat) (page root D toDepth : Nat) :
    (toDepth ≤ D →
      (∀ k, toDepth ≤ k → k < D → TableEntry.is_present (entryAt mem page root D k) = true) →
      (∀ k, toDepth < k → k ≤ D → TableEntry.is_huge (entryAt mem page root D k) = false) →
      withEntry mem page toDepth D root = .ok (entryAt mem page root D toDepth)) ∧
    (∀ d0, toDepth ≤ d0 → d0 < D →
      TableEntry.is_present (entryAt mem page root D d0) = false →
      (∀ k, d0 < k → k < D → TableEntry.is_present (entryAt mem page root D k) = true) →
      (∀ k, d0 < k → k ≤ D → TableEntry.is_huge (entryAt mem page root D k) = false) →
      withEntry mem page toDepth D root = .notMapped) ∧
    (∀ h, toDepth < h → h ≤ D →
      TableEntry.is_huge (entryAt mem page root D h) = true →
      (∀ k, h ≤ k → k < D → TableEntry.is_present (entryAt mem page root D k) = true) →
      (∀ k, h < k → k ≤ D → TableEntry.is_huge (entryAt mem page root D k) = false) →
      withEntry mem page toDepth D root = .hugePage) := by
  refine ⟨fun hle hpres hhuge => ?_, fun d0 h1 h2 habs hpres hhuge => ?_,
    fun h h1 h2 hhug hpres hhuge => ?_⟩
  · have := withEntry_ok_of_path mem page root D toDepth (D - toDepth) D (by omega) le_rfl
      hpres hhuge
    rwa [entryAt_top] at this
  · have := withEntry_notMapped_of_absent mem page root D toDepth d0 habs h1
      (D - d0 - 1) D (by omega) le_rfl hpres hhuge
    rwa [entryAt_top] at this
  · have := withEntry_huge_of_huge mem page root D toDepth h hhug h1
      (D - h) D (by omega) le_rfl hpres hhuge
    rwa [entryAt_top] at this

/-- Witness for C4 on concrete 4-level tables with `page = 0`:
a fully present path yields the leaf entry, an absent leaf yields
`NotMapped`, and a huge entry at depth 2 yields `HugePage`. -/
theorem walker_read_characterization_witness :
    withEntry
      (fun f i => if f = 1 ∧ i = 0 then 8193 else if f = 2 ∧ i = 0 then 12289
        else if f = 3 ∧ i = 0 then 16385 else if f = 4 ∧ i = 0 then 20481 else 0)
      0 0 4 4097 = .ok 20481 ∧
    withEntry
      (fun f i => if f = 1 ∧ i = 0 then 8193 else if f = 2 ∧ i = 0 then 12289
        else if f = 3 ∧ i = 0 then 16385 else 0)
      0 0 4 4097 = .notMapped ∧
    withEntry
      (fun f i => if f = 1 ∧ i = 0 then 8193 else if f = 2 ∧ i = 0 then 12417 else 0)
      0 0 4 4097 = .hugePage := by
  refine ⟨?_, ?_, ?_⟩
  · have h := (walker_read_characterization
      (fun f i => if f = 1 ∧ i = 0 then 8193 else if f = 2 ∧ i = 0 then 12289
        else if f = 3 ∧ i = 0 then 16385 else if f = 4 ∧ i = 0 then 20481 else 0)
      0 4097 4 0).1 (by omega)
      (fun k _ hk => by interval_cases k <;> decide)
      (fun k hk hk2 => by interval_cases k <;> decide)
    rwa [show entryAt
      (fun f i => if f = 1 ∧ i = 0 then 8193 else if f = 2 ∧ i = 0 then 12289
        else if f = 3 ∧ i = 0 then 16385 else if f = 4 ∧ i = 0 then 20481 else 0)
      0 4097 4 0 = 20481 by decide] at h
  · exact (walker_read_characterization
      (fun f i => if f = 1 ∧ i = 0 then 8193 else if f = 2 ∧ i = 0 then 12289
        else if f = 3 ∧ i = 0 then 16385 else 0)
      0 4097 4 0).2.1 0 (by omega) (by omega) (by decide)
      (fun k hk hk2 => by interval_cases k <;> decide)
      (fun k hk hk2 => by interval_cases k <;> decide)
  · exact (walker_read_characterization
      (fun f i => if f = 1 ∧ i = 0 then 8193 else if f = 2 ∧ i = 0 then 12417 else 0)
      0 4097 4 0).2.2 2 (by omega) (by omega) (by decide)
      (fun k hk hk2 => by interval_cases k <;> decide)
      (fun k hk hk2 => by interval_cases k <;> decide)

/-! ### The creating walker: theorems -/

theorem createFlags_eq (d : Nat) : createFlags d = 7 := by
  unfold createFlags
  split <;> decide

theorem new_and_low (x y m : Nat) (hm : m < 4096) :
    ((x <<< 12) ||| y) &&& m = y &&& m := by
  apply Nat.eq_of_testBit_eq
  intro i
  simp only [Nat.testBit_and, Nat.testBit_or, Nat.testBit_shiftLeft]
  by_cases h12 : 12 ≤ i
  · have hm' : m.testBit i = false := by
      refine Nat.testBit_lt_two_pow (lt_of_lt_of_le hm ?_)
      calc (4096 : Nat) = 2 ^ 12 := by norm_num
        _ ≤ 2 ^ i := Nat.pow_le_pow_right (by norm_num) h12
    simp [hm']
  · simp [h12]

theorem present_of_createFlags (F d : Nat) :
    TableEntry.is_present (TableEntry.new F (createFlags d)) = true := by
  simp only [TableEntry.is_present, TableEntry.get_attributes,
    TableEntryFlags.fromBitsTruncate, TableEntryFlags.containsFlags, TableEntry.new,
    createFlags_eq, FRAME_ADDRESS_SHIFT, decide_eq_true_eq]
  rw [Nat.and_assoc, show TableEntryFlags.ALL &&& TableEntryFlags.PRESENT = 1 by decide,
    new_and_low F 7 1 (by norm_num)]
  decide

theorem user_of_createFlags (F d : Nat) :
    TableEntryFlags.containsFlags
      (TableEntry.get_attributes (TableEntry.new F (createFlags d)))
      TableEntryFlags.USER = true := by
  simp only [TableEntry.get_attributes, TableEntryFlags.fromBitsTruncate,
    TableEntryFlags.containsFlags, TableEntry.new, createFlags_eq, FRAME_ADDRESS_SHIFT,
    decide_eq_true_eq]
  rw [Nat.and_assoc, show TableEntryFlags.ALL &&& TableEntryFlags.USER = 4 by decide,
    new_and_low F 7 4 (by norm_num)]
  decide

theorem not_huge_of_createFlags (F d : Nat) :
    TableEntry.is_huge (TableEntry.new F (createFlags d)) = false := by
  simp only [TableEntry.is_huge, TableEntry.get_attributes,
    TableEntryFlags.fromBitsTruncate, TableEntryFlags.containsFlags, TableEntry.new,
    createFlags_eq, FRAME_ADDRESS_SHIFT, decide_eq_false_iff_not]
  rw [Nat.and_assoc, show TableEntryFlags.ALL &&& TableEntryFlags.HUGE = 128 by decide,
    new_and_low F 7 128 (by norm_num)]
  decide

theorem get_frame_of_createFlags (F d : Nat) (hF : F < 2 ^ 40) :
    TableEntry.get_frame (TableEntry.new F (createFlags d)) = F := by
  rw [createFlags_eq]
  unfold TableEntry.get_frame TableEntry.new FRAME_ADDRESS_SHIFT
  rw [new_and_mask hF (show (7 : Nat) &&& TableEntryFlags.ALL = 7 by decide),
    shiftLeft_shiftRight_cancel]

theorem installEntry_free (s : CreateState) (loc : TableLoc) (F d : Nat) (rest : List Nat) :
    (installEntry s loc F d rest).free = rest := by
  rcases loc with _ | ⟨f, i⟩ <;> rfl

theorem readLoc_installEntry_self (s : CreateState) (loc : TableLoc) (F d : Nat)
    (rest : List Nat) :
    readLoc (installEntry s loc F d rest) loc = TableEntry.new F (createFlags d) := by
  rcases loc with _ | ⟨f, i⟩
  · rfl
  · simp [installEntry, writeLoc, readLoc]

theorem installEntry_mem_of_notLoc (s : CreateState) (loc : TableLoc) (F d g j : Nat)
    (rest : List Nat) (h : ∀ i, loc ≠ Option.some (g, i)) :
    (installEntry s loc F d rest).mem g j = if g = F then 0 else s.mem g j := by
  rcases loc with _ | ⟨f, i⟩
  · rfl
  · simp only [installEntry, writeLoc, zeroFrame]
    have hne : ¬(g = f ∧ j = i) := by
      rintro ⟨rfl, rfl⟩
      exact h j rfl
    simp [hne]

theorem withEntryCreate_allocError :
    ∀ (d page toDepth : Nat) (s : CreateState) (loc : TableLoc),
      (withEntryCreate page toDepth d s loc).1 = .allocError →
      (withEntryCreate page toDepth d s loc).2.free = [] := by
  intro d
  induction d with
  | zero =>
    intro page toDepth s loc h
    rw [withEntryCreate] at h ⊢
    split at h <;> simp_all
  | succ d ih =>
    intro page toDepth s loc h
    rw [withEntryCreate] at h ⊢
    by_cases h1 : d + 1 = toDepth
    · simp [h1] at h
    · rw [if_neg h1] at h ⊢
      by_cases h2 : toDepth < d + 1
      · rw [if_pos h2] at h ⊢
        by_cases h3 : TableEntry.is_huge (readLoc s loc) = true
        · simp [h3] at h
        · rw [Bool.not_eq_true] at h3
          rw [h3] at h ⊢
          simp only [Bool.false_eq_true, if_false] at h ⊢
          by_cases h4 : TableEntry.is_present (readLoc s loc) = true
          · rw [h4] at h ⊢
            simp only [if_true] at h ⊢
            exact ih _ _ _ _ h
          · rw [Bool.not_eq_true] at h4
            rw [h4] at h ⊢
            simp only [Bool.false_eq_true, if_false] at h ⊢
            rcases hfree : s.free with _ | ⟨F, rest⟩
            · rw [hfree]
            · rw [hfree] at h
              exact ih _ _ _ _ h
      · simp [h2] at h

theorem withEntryCreate_fresh :
    ∀ (d : Nat) (s : CreateState) (loc : TableLoc) (fr : List Nat) (page : Nat),
      s.free = fr → d ≤ fr.length → fr.Nodup → (∀ F ∈ fr, F < 2 ^ 40) →
      readLoc s loc = 0 →
      (∀ F ∈ fr, ∀ i, s.mem F i = 0) →
      (∀ F ∈ fr, ∀ i, loc ≠ Option.some (F, i)) →
      ∃ s', withEntryCreate page 0 d s loc = (.ok 0, s') ∧ s'.free = fr.drop d := by
  intro d
  induction d with
  | zero =>
    intro s loc fr page hfree _ _ _ hread _ _
    refine ⟨s, ?_, by simpa using hfree⟩
    rw [withEntryCreate, if_pos rfl, hread]
  | succ d ih =>
    intro s loc fr page hfree hlen hnodup hbound hread hzero hnotloc
    rcases fr with _ | ⟨F, rest⟩
    · simp at hlen
    · have hF : F < 2 ^ 40 := hbound F (List.mem_cons_self F rest)
      have hstep : withEntryCreate page 0 (d + 1) s loc =
          withEntryCreate page 0 d (installEntry s loc F (d + 1) rest)
            (Option.some (F, entryIndex page (d + 1))) := by
        rw [withEntryCreate, if_neg (by omega), if_pos (by omega), hread]
        simp only [show TableEntry.is_huge 0 = false by decide,
          show TableEntry.is_present 0 = false by decide, Bool.false_eq_true, if_false]
        rw [hfree]
        show withEntryCreate page 0 d (installEntry s loc F (d + 1) rest)
          (Option.some (TableEntry.get_frame (TableEntry.new F (createFlags (d + 1))),
            entryIndex page (d + 1))) = _
        rw [get_frame_of_createFlags F (d + 1) hF]
      have hmem1 : ∀ G ∈ rest, ∀ i, (installEntry s loc F (d + 1) rest).mem G i = 0 := by
        intro G hG i
        rw [installEntry_mem_of_notLoc s loc F (d + 1) G i rest
          (hnotloc G (List.mem_cons_of_mem F hG))]
        split
        · rfl
        · exact hzero G (List.mem_cons_of_mem F hG) i
      have hread1 : readLoc (installEntry s loc F (d + 1) rest)
          (Option.some (F, entryIndex page (d + 1))) = 0 := by
        show (installEntry s loc F (d + 1) rest).mem F (entryIndex page (d + 1)) = 0
        rw [installEntry_mem_of_notLoc s loc F (d + 1) F _ rest
          (hnotloc F (List.mem_cons_self F rest))]
        simp
      have hFnotin : F ∉ rest := (List.nodup_cons.mp hnodup).1
      obtain ⟨s', hrun, hfree'⟩ := ih (installEntry s loc F (d + 1) rest)
        (Option.some (F, entryIndex page (d + 1))) rest page
        (installEntry_free s loc F (d + 1) rest) (by simpa using hlen)
        (List.nodup_cons.mp hnodup).2
        (fun G hG => hbound G (List.mem_cons_of_mem F hG))
        hread1 hmem1
        (by
          intro G hG i hcon
          obtain ⟨rfl, _⟩ : F = G ∧ entryIndex page (d + 1) = i := by
            simpa using hcon
          exact hFnotin hG)
      exact ⟨s', hstep.trans hrun, by simpa using hfree'⟩

/-- C3: the creating walk (`with_entry_create`): (1) it returns `AllocError`
only when the frame allocator is exhausted (its free list at return is
empty); (2) on an absent entry above the stop depth it pops the allocator's
next frame `F`, zero-fills `F`'s contents, installs a present entry with the
user-accessible bit set (and not huge) into the cell, and continues the
descent into `F`; (3) on a freshly created address space, a walk to the
minimum depth for any page succeeds with a zeroed leaf entry, consuming one
allocator frame per level. -/
theorem walker_create_correct :
    (∀ (d page toDepth : Nat) (s : CreateState) (loc : TableLoc),
      (withEntryCreate page toDepth d s loc).1 = .allocError →
      (withEntryCreate page toDepth d s loc).2.free = []) ∧
    (∀ (page toDepth depth : Nat) (s : CreateState) (loc : TableLoc) (F : Nat)
        (rest : List Nat),
      toDepth < depth + 1 →
      TableEntry.is_huge (readLoc s loc) = false →
      TableEntry.is_present (readLoc s loc) = false →
      s.free = F :: rest →
      withEntryCreate page toDepth (depth + 1) s loc =
        withEntryCreate page toDepth depth (installEntry s loc F (depth + 1) rest)
          (Option.some (TableEntry.get_frame (TableEntry.new F (createFlags (depth + 1))),
            entryIndex page (depth + 1))) ∧
      readLoc (installEntry s loc F (depth + 1) rest) loc =
        TableEntry.new F (createFlags (depth + 1)) ∧
      TableEntry.is_present (TableEntry.new F (createFlags (depth + 1))) = true ∧
      TableEntryFlags.containsFlags
        (TableEntry.get_attributes (TableEntry.new F (createFlags (depth + 1))))
        TableEntryFlags.USER = true ∧
      TableEntry.is_huge (TableEntry.new F (createFlags (depth + 1))) = false ∧
      (installEntry s loc F (depth + 1) rest).free = rest ∧
      ((∀ i, loc ≠ Option.some (F, i)) →
        ∀ i, (installEntry s loc F (depth + 1) rest).mem F i = 0)) ∧
    (∀ (fr : List Nat) (page D : Nat),
      D ≤ fr.length → fr.Nodup → (∀ F ∈ fr, F < 2 ^ 40) →
      ∃ s', withEntryCreate page 0 D (freshCreateState fr) Option.none = (.ok 0, s') ∧
        s'.free = fr.drop D) := by
  refine ⟨withEntryCreate_allocError, ?_, ?_⟩
  · intro page toDepth depth s loc F rest h1 h2 h3 hfree
    refine ⟨?_, readLoc_installEntry_self s loc F (depth + 1) rest,
      present_of_createFlags F (depth + 1), user_of_createFlags F (depth + 1),
      not_huge_of_createFlags F (depth + 1), installEntry_free s loc F (depth + 1) rest,
      fun hnl i => by
        rw [installEntry_mem_of_notLoc s loc F (depth + 1) F i rest hnl]
        simp⟩
    rw [withEntryCreate, if_neg (by omega), if_pos h1, h2]
    simp only [Bool.false_eq_true, if_false]
    rw [h3]
    simp only [Bool.false_eq_true, if_false]
    rw [hfree]
  · intro fr page D hlen hnodup hbound
    exact withEntryCreate_fresh D (freshCreateState fr) Option.none fr page rfl hlen hnodup
      hbound rfl (fun _ _ _ => rfl) (fun _ _ _ => by simp [freshCreateState])

/-- Witness for C3: exhaustion on an empty allocator at depth 1; a concrete
install step at depth 3 on a fresh state with allocator `[5]`; and the
fresh-address-space scenario with allocator `[1, 2, 3, 4]` walked to the
leaf (scenario C). -/
theorem walker_create_correct_witness :
    (withEntryCreate 0 0 1 (freshCreateState []) Option.none).2.free = [] ∧
    readLoc (installEntry (freshCreateState [5]) Option.none 5 3 []) Option.none =
      TableEntry.new 5 (createFlags 3) ∧
    (∃ s', withEntryCreate 0 0 4 (freshCreateState [1, 2, 3, 4]) Option.none =
      (.ok 0, s') ∧ s'.free = [1, 2, 3, 4].drop 4) := by
  refine ⟨walker_create_correct.1 1 0 0 (freshCreateState []) Option.none (by decide),
    (walker_create_correct.2.1 0 0 2 (freshCreateState [5]) Option.none 5 []
      (by omega) (by decide) (by decide) rfl).2.1,
    walker_create_correct.2.2 [1, 2, 3, 4] 0 4 (by decide) (by decide) (by decide)⟩

/-! ### The block heap allocator: theorems -/

/-- C7: alignment policy of `alloc`: the requested alignment is kept exactly
when it is a multiple of the 64-byte block size and silently downgraded to
the block size otherwise (in particular `align = 8` becomes 64); and every
pointer a successful `alloc` returns is block-aligned (a multiple of 64). -/
theorem alloc_alignment_policy :
    (∀ align, align &&& (BLOCK_SIZE - 1) = 0 → effectiveAlign align = align) ∧
    (∀ align, align &&& (BLOCK_SIZE - 1) ≠ 0 → effectiveAlign align = BLOCK_SIZE) ∧
    effectiveAlign 8 = 64 ∧
    (∀ fuel (m : List Nat) size align ptr (m2 mapped : List Nat),
      blockAlloc fuel m size align = Option.some (ptr, m2, mapped) →
      ptr % BLOCK_SIZE = 0) := by
  refine ⟨fun align h => by simp [effectiveAlign, h],
    fun align h => by simp [effectiveAlign, h], by decide, ?_⟩
  intro fuel m size align ptr m2 mapped h
  rw [blockAlloc] at h
  split at h
  · exact absurd h (by simp)
  · split at h
    · exact absurd h (by simp)
    · simp only [Option.some.injEq, Prod.mk.injEq] at h
      obtain ⟨rfl, rfl, rfl⟩ := h
      exact Nat.mul_mod_left _ _

set_option maxRecDepth 100000 in
/-- Witness for C7 at the spec's concrete input: `alloc(size=100, align=8)`
on a fresh heap returns pointer 0, and it is 64-byte aligned. -/
theorem alloc_alignment_policy_witness :
    effectiveAlign 8 = 64 ∧ (0 : Nat) % BLOCK_SIZE = 0 :=
  ⟨alloc_alignment_policy.2.2.1,
    alloc_alignment_policy.2.2.2 2 [] 100 8 0 (3 :: List.replicate 511 0) [0] (by decide)⟩

set_option maxRecDepth 100000 in
/-- C5 counterexample: on a fresh heap, `alloc(4096, 64)` grows the map to
512 BlockPages and fills BlockPage 0, mapping exactly page 0; the following
`alloc(64, 64)` already succeeds with fuel 1 — a single scan pass with no
`grow` call (fuel is consumed only by `grow` retries) — taking block 64 on
the freshly mapped page 1.  The claim's requirement that the second
allocation triggers `grow` is false. -/
theorem alloc_scenarioA_counterexample :
    blockAlloc 2 [] 4096 64 =
      Option.some (0, (2 ^ 64 - 1) :: List.replicate 511 0, [0]) ∧
    blockAlloc 1 ((2 ^ 64 - 1) :: List.replicate 511 0) 64 64 =
      Option.some (4096, (2 ^ 64 - 1) :: 1 :: List.replicate 510 0, [1]) := by
  exact ⟨by decide, by decide⟩

set_option maxRecDepth 100000 in
/-- C5 amended: fresh heap, `alloc(4096, 64)` maps exactly one new backing
page (all 64 blocks of BlockPage 0 become set); the following
`alloc(64, 64)` does not reuse any block of that page — it takes block 64,
demand-mapping page 1 — but does not trigger `grow`: it succeeds within a
single scan pass (fuel 1), and a fuel-1 `allocLoop` success always returns
the map unchanged (no growth). -/
theorem alloc_scenarioA_amended :
    blockAlloc 2 [] 4096 64 =
      Option.some (0, (2 ^ 64 - 1) :: List.replicate 511 0, [0]) ∧
    blockAlloc 1 ((2 ^ 64 - 1) :: List.replicate 511 0) 64 64 =
      Option.some (4096, (2 ^ 64 - 1) :: 1 :: List.replicate 510 0, [1]) ∧
    (∀ (al sz : Nat) (m : List Nat) (out : List Nat × Nat × Nat),
      allocLoop al sz 1 m = Option.some out → out.1 = m) := by
  refine ⟨by decide, by decide, ?_⟩
  intro al sz m out h
  rw [allocLoop] at h
  by_cases hr : (scanMap al sz m 0 0).2.2 < sz
  · rw [if_pos hr] at h
    rcases hg : grow m sz with _ | mg <;> rw [hg] at h
    · exact absurd h (by simp)
    · exact absurd h (by simp [allocLoop])
  · rw [if_neg hr] at h
    rw [Option.some.injEq] at h
    rw [← h]

/-- Witness for the amended C5: the fuel-1 `allocLoop` fact at a concrete
input (one free BlockPage, one block requested). -/
theorem alloc_scenarioA_amended_witness :
    (([0], 0, 1) : List Nat × Nat × Nat).1 = ([0] : List Nat) :=
  alloc_scenarioA_amended.2.2 64 1 [0] ([0], 0, 1) (by decide)

/-! ### Growth lemmas (C8) -/

theorem nextPow2Aux_ge : ∀ (fuel p n : Nat), n ≤ p * 2 ^ fuel → n ≤ nextPow2Aux n fuel p := by
  intro fuel
  induction fuel with
  | zero => intro p n h; simpa [nextPow2Aux] using h
  | succ fuel ih =>
    intro p n h
    rw [nextPow2Aux]
    split
    · assumption
    · refine ih (2 * p) n ?_
      have heq : 2 * p * 2 ^ fuel = p * 2 ^ (fuel + 1) := by ring
      rw [heq]
      exact h

theorem nextPow2_ge (n : Nat) : n ≤ nextPow2 n := by
  refine nextPow2Aux_ge n 1 n ?_
  rw [Nat.one_mul]
  exact Nat.le_of_lt (Nat.lt_two_pow n)

theorem grow_spec (m : List Nat) (r : Nat) (m' : List Nat) (h : grow m r = Option.some m') :
    ∃ k, 0 < k ∧ m' = m ++ List.replicate k 0 := by
  rw [grow] at h
  split at h
  · exact absurd h (by simp)
  · rw [Option.some.injEq] at h
    refine ⟨_, ?_, h.symm⟩
    have hk : 1 ≤ alignUpDiv r BLOCKS_PER_MAP_PAGE := by
      unfold alignUpDiv BLOCKS_PER_MAP_PAGE
      have : r ≠ 0 := by assumption
      have h1 : 32768 ≤ r + 8 * 4096 - 1 := by omega
      omega
    have hcpo : m.length * BLOCKS_PER / BLOCKS_PER_MAP_PAGE = m.length / 512 := by
      show m.length * 64 / (8 * 4096) = m.length / 512
      rw [show (8 * 4096 : Nat) = 64 * 512 by norm_num, Nat.mul_comm m.length 64,
        Nat.mul_div_mul_left _ _ (by norm_num)]
    have hge : m.length / 512 + alignUpDiv r BLOCKS_PER_MAP_PAGE ≤
        nextPow2 (m.length * BLOCKS_PER / BLOCKS_PER_MAP_PAGE +
          alignUpDiv r BLOCKS_PER_MAP_PAGE) := by
      rw [hcpo]
      exact nextPow2_ge _
    have hdiv := Nat.div_add_mod m.length 512
    have hmod := Nat.mod_lt m.length (show 0 < 512 by norm_num)
    have : m.length < nextPow2 (m.length * BLOCKS_PER / BLOCKS_PER_MAP_PAGE +
        alignUpDiv r BLOCKS_PER_MAP_PAGE) * 512 := by
      have h512 : (m.length / 512 + 1) * 512 ≤
          nextPow2 (m.length * BLOCKS_PER / BLOCKS_PER_MAP_PAGE +
            alignUpDiv r BLOCKS_PER_MAP_PAGE) * 512 :=
        Nat.mul_le_mul_right _ (by omega)
      omega
    omega

theorem allocLoop_extends :
    ∀ (fuel al sz : Nat) (m m1 : List Nat) (s e : Nat),
      allocLoop al sz fuel m = Option.some (m1, s, e) →
      ∃ k, m1 = m ++ List.replicate k 0 := by
  intro fuel
  induction fuel with
  | zero => intro al sz m m1 s e h; exact absurd h (by simp [allocLoop])
  | succ fuel ih =>
    intro al sz m m1 s e h
    rw [allocLoop] at h
    by_cases hr : (scanMap al sz m 0 0).2.2 < sz
    · rw [if_pos hr] at h
      rcases hg : grow m sz with _ | mg <;> rw [hg] at h
      · exact absurd h (by simp)
      · obtain ⟨k1, -, hg1⟩ := grow_spec m sz mg hg
        obtain ⟨k2, hk2⟩ := ih al sz mg m1 s e h
        exact ⟨k1 + k2, by rw [hk2, hg1, List.append_assoc, ← List.replicate_add]⟩
    · rw [if_neg hr, Option.some.injEq] at h
      obtain ⟨rfl, -, -⟩ : m = m1 ∧ _ = s ∧ _ = e := by
        simpa [Prod.ext_iff] using h
      exact ⟨0, by simp⟩

theorem allocCommit_length :
    ∀ (c : Nat) (m : List Nat) (i b e : Nat) (m2 pages : List Nat),
      allocCommit m c i b e = Option.some (m2, pages) → m2.length = m.length := by
  intro c
  induction c with
  | zero =>
    intro m i b e m2 pages h
    rw [allocCommit] at h
    simp only [Option.some.injEq, Prod.mk.injEq] at h
    rw [← h.1]
  | succ c ih =>
    intro m i b e m2 pages h
    rw [allocCommit] at h
    split at h
    · simp only [Option.some.injEq, Prod.mk.injEq] at h
      rw [← h.1]
    · split at h
      · exact absurd h (by simp)
      · split at h
        · exact absurd h (by simp)
        · split at h
          · exact absurd h (by simp)
          · rename_i heqrec
            simp only [Option.some.injEq, Prod.mk.injEq] at h
            rw [← h.1, ih _ _ _ _ _ _ heqrec, List.length_set]

theorem deallocCommit_length :
    ∀ (c : Nat) (m : List Nat) (i b e : Nat) (m2 pages : List Nat),
      deallocCommit m c i b e = Option.some (m2, pages) → m2.length = m.length := by
  intro c
  induction c with
  | zero =>
    intro m i b e m2 pages h
    rw [deallocCommit] at h
    simp only [Option.some.injEq, Prod.mk.injEq] at h
    rw [← h.1]
  | succ c ih =>
    intro m i b e m2 pages h
    rw [deallocCommit] at h
    split at h
    · simp only [Option.some.injEq, Prod.mk.injEq] at h
      rw [← h.1]
    · split at h
      · exact absurd h (by simp)
      · split at h
        · exact absurd h (by simp)
        · split at h
          · exact absurd h (by simp)
          · rename_i heqrec
            simp only [Option.some.injEq, Prod.mk.injEq] at h
            rw [← h.1, ih _ _ _ _ _ _ heqrec, List.length_set]

/-- C8: the BlockPage map only grows: a successful `grow` strictly
increases `len()`, preserves every existing word (hence every block bit set
before the `grow` keeps its value), and exposes only zeroed BlockPages past
the old length; `alloc` never shrinks the map and `dealloc` never changes
its length, so `len()` is monotonically non-decreasing across any
interleaving. -/
theorem blockmap_monotone_growth :
    (∀ (m : List Nat) (r : Nat) (m' : List Nat), grow m r = Option.some m' →
      m.length < m'.length ∧
      (∀ i, i < m.length → m'[i]? = m[i]?) ∧
      (∀ i, m.length ≤ i → i < m'.length → m'[i]? = Option.some 0)) ∧
    (∀ (fuel : Nat) (m : List Nat) (size align ptr : Nat) (m2 mapped : List Nat),
      blockAlloc fuel m size align = Option.some (ptr, m2, mapped) →
      m.length ≤ m2.length ∧ (∀ i, i < m.length → ∃ w, m[i]? = Option.some w)) ∧
    (∀ (m : List Nat) (ptr size : Nat) (m3 freed : List Nat),
      blockDealloc m ptr size = Option.some (m3, freed) → m3.length = m.length) := by
  refine ⟨?_, ?_, ?_⟩
  · intro m r m' h
    obtain ⟨k, hk, rfl⟩ := grow_spec m r m' h
    refine ⟨by simp [hk], fun i hi => List.getElem?_append_left hi, fun i h1 h2 => ?_⟩
    rw [List.getElem?_append_right h1]
    rw [List.getElem?_replicate]
    rw [if_pos (by simp at h2 ⊢; omega)]
  · intro fuel m size align ptr m2 mapped h
    rw [blockAlloc] at h
    split at h
    · exact absurd h (by simp)
    · rename_i x m1 s e hl
      split at h
      · exact absurd h (by simp)
      · rename_i m2' mapped' hc
        have hext := allocLoop_extends fuel _ _ m m1 s e hl
        have hlen := allocCommit_length _ m1 _ _ _ _ _ hc
        simp only [Option.some.injEq, Prod.mk.injEq] at h
        obtain ⟨-, rfl, rfl⟩ := h
        obtain ⟨k, hk⟩ := hext
        subst hk
        constructor
        · rw [hlen]
          simp
        · intro i hi
          exact ⟨m[i], List.getElem?_eq_some.mpr ⟨hi, rfl⟩⟩
  · intro m ptr size m3 freed h
    exact deallocCommit_length _ m _ _ _ m3 freed h

/-! ### Round-trip lemmas (C2) -/

theorem or_eq_zero_right {x y : Nat} (h : x ||| y = 0) : y = 0 := by
  apply Nat.eq_of_testBit_eq
  intro i
  have h2 := congrArg (fun z => Nat.testBit z i) h
  simp only [Nat.testBit_or, Nat.zero_testBit, Bool.or_eq_false_iff] at h2
  simp [h2.2]

theorem or_and_mask_self (w mask : Nat) : (w ||| mask) &&& mask = mask := by
  apply Nat.eq_of_testBit_eq
  intro i
  simp only [Nat.testBit_and, Nat.testBit_or]
  cases hw : w.testBit i <;> cases hm : mask.testBit i <;> rfl

theorem or_xor_mask_of_disjoint {w mask : Nat} (h : w &&& mask = 0) :
    (w ||| mask) ^^^ mask = w := by
  apply Nat.eq_of_testBit_eq
  intro i
  have hb : (w.testBit i && mask.testBit i) = false := by
    have h2 := congrArg (fun x => Nat.testBit x i) h
    simpa [Nat.testBit_and] using h2
  simp only [Nat.testBit_xor, Nat.testBit_or]
  cases hw : w.testBit i <;> cases hm : mask.testBit i <;> simp_all

theorem shifted_ones_ne_zero {cnt off : Nat} (h : 0 < cnt) :
    (2 ^ cnt - 1) <<< off ≠ 0 := by
  rw [Nat.shiftLeft_eq]
  have h1 : 2 ≤ 2 ^ cnt := by
    calc (2 : Nat) = 2 ^ 1 := rfl
    _ ≤ 2 ^ cnt := Nat.pow_le_pow_right (by norm_num) h
  have h2 : 0 < 2 ^ off := Nat.two_pow_pos off
  intro hcon
  rcases Nat.mul_eq_zero.mp hcon with h3 | h3 <;> omega

theorem calc_mask_ne_zero {i b e : Nat} (h : (calculate_bit_fields i e b).1 ≠ 0) :
    (calculate_bit_fields i e b).2 ≠ 0 := by
  have h1 : 0 < (calculate_bit_fields i e b).1 := by omega
  exact shifted_ones_ne_zero h1

theorem set_self_of_getElem {m : List Nat} {i w : Nat} (h : m[i]? = Option.some w) :
    m.set i w = m := by
  apply List.ext_getElem?
  intro j
  by_cases hj : j = i
  · subst hj
    rw [List.getElem?_set_self (by
      by_contra hcon
      rw [List.getElem?_eq_none (by omega)] at h
      exact absurd h (by simp))]
    exact h.symm
  · exact List.getElem?_set_ne (fun hc => hj hc.symm)

theorem allocCommit_getElem_lt :
    ∀ (c : Nat) (m : List Nat) (i b e : Nat) (m2 pages : List Nat),
      allocCommit m c i b e = Option.some (m2, pages) →
      ∀ j, j < i → m2[j]? = m[j]? := by
  intro c
  induction c with
  | zero =>
    intro m i b e m2 pages h j hj
    rw [allocCommit] at h
    simp only [Option.some.injEq, Prod.mk.injEq] at h
    rw [← h.1]
  | succ c ih =>
    intro m i b e m2 pages h j hj
    rw [allocCommit] at h
    split at h
    · simp only [Option.some.injEq, Prod.mk.injEq] at h
      rw [← h.1]
    · split at h
      · exact absurd h (by simp)
      · split at h
        · exact absurd h (by simp)
        · split at h
          · exact absurd h (by simp)
          · rename_i heqrec
            simp only [Option.some.injEq, Prod.mk.injEq] at h
            rw [← h.1, ih _ _ _ _ _ _ heqrec j (by omega),
              List.getElem?_set_ne (show i ≠ j by omega)]

theorem deallocCommit_set_lt :
    ∀ (c : Nat) (m : List Nat) (i b e j v : Nat) (m2 pages : List Nat),
      j < i → deallocCommit m c i b e = Option.some (m2, pages) →
      deallocCommit (m.set j v) c i b e = Option.some (m2.set j v, pages) := by
  intro c
  induction c with
  | zero =>
    intro m i b e j v m2 pages hj h
    rw [deallocCommit] at h ⊢
    simp only [Option.some.injEq, Prod.mk.injEq] at h ⊢
    exact ⟨by rw [h.1], h.2⟩
  | succ c ih =>
    intro m i b e j v m2 pages hj h
    rw [deallocCommit] at h ⊢
    rw [List.getElem?_set_ne (show j ≠ i by omega)]
    split at h
    · rename_i hm
      simp only [Option.some.injEq, Prod.mk.injEq] at h ⊢
      exact ⟨by rw [h.1], h.2⟩
    · rename_i w hm
      split at h
      · exact absurd h (by simp)
      · rename_i hcnt
        split at h
        · exact absurd h (by simp)
        · rename_i hmask
          split at h
          · exact absurd h (by simp)
          · rename_i m3 pgs hrec
            rw [if_neg hcnt, if_neg hmask,
              List.set_comm v (w ^^^ (calculate_bit_fields i e b).2) m
                (show j ≠ i by omega),
              ih _ _ _ _ j v _ _ (by omega) hrec]
            simp only [Option.some.injEq, Prod.mk.injEq] at h ⊢
            exact ⟨by rw [h.1], h.2⟩

theorem commit_roundtrip :
    ∀ (c : Nat) (m : List Nat) (i b e : Nat) (m2 pages : List Nat),
      allocCommit m c i b e = Option.some (m2, pages) →
      ∃ freed, deallocCommit m2 c i b e = Option.some (m, freed) ∧
        (∀ j, j ∈ freed ↔ ∃ w2, m2[j]? = Option.some w2 ∧ w2 ≠ 0 ∧
          m[j]? = Option.some 0) := by
  intro c
  induction c with
  | zero =>
    intro m i b e m2 pages h
    rw [allocCommit] at h
    simp only [Option.some.injEq, Prod.mk.injEq] at h
    obtain ⟨rfl, rfl⟩ := h
    refine ⟨[], by rw [deallocCommit], fun j => ?_⟩
    simp only [List.not_mem_nil, false_iff, not_exists]
    rintro w2 ⟨hw2, hne, hz⟩
    rw [hw2] at hz
    exact hne (Option.some.inj hz)
  | succ c ih =>
    intro m i b e m2 pages h
    rw [allocCommit] at h
    split at h
    · rename_i hm
      simp only [Option.some.injEq, Prod.mk.injEq] at h
      obtain ⟨rfl, rfl⟩ := h
      refine ⟨[], ?_, fun j => ?_⟩
      · rw [deallocCommit]
        split
        · rfl
        · rename_i w2 heq2
          rw [hm] at heq2
          exact absurd heq2 (by simp)
      · simp only [List.not_mem_nil, false_iff, not_exists]
        rintro w2 ⟨hw2, hne, hz⟩
        rw [hw2] at hz
        exact hne (Option.some.inj hz)
    · rename_i w hm
      split at h
      · exact absurd h (by simp)
      · rename_i hcnt
        split at h
        · exact absurd h (by simp)
        · rename_i hmask
          split at h
          · exact absurd h (by simp)
          · rename_i m3 pgs hrec
            simp only [Option.some.injEq, Prod.mk.injEq] at h
            obtain ⟨rfl, rfl⟩ := h
            have hw0 : w &&& (calculate_bit_fields i e b).2 = 0 := not_ne_iff.mp hmask
            obtain ⟨freed', hdeq, hchar⟩ := ih _ _ _ _ _ _ hrec
            have hilen : i < m.length := by
              by_contra hcon
              rw [List.getElem?_eq_none (by omega)] at hm
              exact absurd hm (by simp)
            have hm3i : m3[i]? = Option.some (w ||| (calculate_bit_fields i e b).2) := by
              rw [allocCommit_getElem_lt c _ _ _ _ _ _ hrec i (by omega),
                List.getElem?_set_self hilen]
            refine ⟨(if w ||| (calculate_bit_fields i e b).2 ≠ 0 ∧
                (w ||| (calculate_bit_fields i e b).2) ^^^ (calculate_bit_fields i e b).2 = 0
                then [i] else []) ++ freed', ?_, ?_⟩
            · rw [deallocCommit]
              split
              · rename_i heq2
                rw [hm3i] at heq2
                exact absurd heq2 (by simp)
              · rename_i w2 heq2
                rw [hm3i, Option.some.injEq] at heq2
                obtain rfl := heq2
                rw [if_neg hcnt,
                  if_neg (show ¬((w ||| (calculate_bit_fields i e b).2) &&&
                    (calculate_bit_fields i e b).2 ≠ (calculate_bit_fields i e b).2) from by
                      rw [or_and_mask_self]; simp),
                  or_xor_mask_of_disjoint hw0,
                  deallocCommit_set_lt c m3 (i + 1) _ e i w _ _ (by omega) hdeq,
                  List.set_set, set_self_of_getElem hm]
            · intro j
              have hsetj : ∀ x : Nat, (m.set i x)[j]? =
                  if j = i then Option.some x else m[j]? := by
                intro x
                by_cases hj : j = i
                · subst hj
                  rw [List.getElem?_set_self hilen, if_pos rfl]
                · rw [List.getElem?_set_ne (fun hc => hj hc.symm), if_neg hj]
              rw [List.mem_append]
              by_cases hj : j = i
              · subst hj
                have hnotin : j ∉ freed' := by
                  intro hin
                  obtain ⟨w2, hw2, hne, hz⟩ := (hchar j).mp hin
                  rw [hsetj, if_pos rfl] at hz
                  exact calc_mask_ne_zero hcnt
                    (or_eq_zero_right (Option.some.inj hz))
                constructor
                · rintro (hd | hf)
                  · have hcond : w ||| (calculate_bit_fields j e b).2 ≠ 0 ∧
                        (w ||| (calculate_bit_fields j e b).2) ^^^
                          (calculate_bit_fields j e b).2 = 0 := by
                      by_contra hcon
                      rw [if_neg hcon] at hd
                      exact absurd hd (by simp)
                    rw [or_xor_mask_of_disjoint hw0] at hcond
                    exact ⟨w ||| (calculate_bit_fields j e b).2, hm3i, hcond.1,
                      by rw [hm, hcond.2]⟩
                  · exact absurd hf hnotin
                · rintro ⟨w2, hw2, hne, hz⟩
                  left
                  rw [hm3i, Option.some.injEq] at hw2
                  rw [hm, Option.some.injEq] at hz
                  rw [if_pos ⟨by rw [hw2]; exact hne,
                    by rw [or_xor_mask_of_disjoint hw0, ← hz]⟩]
                  simp
              · have hdnot : j ∉ (if w ||| (calculate_bit_fields i e b).2 ≠ 0 ∧
                    (w ||| (calculate_bit_fields i e b).2) ^^^
                      (calculate_bit_fields i e b).2 = 0 then [i] else []) := by
                  split
                  · simp [hj]
                  · simp
                constructor
                · rintro (hd | hf)
                  · exact absurd hd hdnot
                  · obtain ⟨w2, hw2, hne, hz⟩ := (hchar j).mp hf
                    rw [hsetj, if_neg hj] at hz
                    exact ⟨w2, hw2, hne, hz⟩
                · rintro ⟨w2, hw2, hne, hz⟩
                  right
                  refine (hchar j).mpr ⟨w2, hw2, hne, ?_⟩
                  rw [hsetj, if_neg hj]
                  exact hz

theorem scanWordAux_inv (w al sz : Nat) :
    ∀ (cnt shift b r : Nat), r < sz → r ≤ b →
      ((scanWordAux w al sz cnt shift b r).1 = true →
        (scanWordAux w al sz cnt shift b r).2.2 = sz) ∧
      ((scanWordAux w al sz cnt shift b r).1 = false →
        (scanWordAux w al sz cnt shift b r).2.2 < sz) ∧
      (scanWordAux w al sz cnt shift b r).2.2 ≤ (scanWordAux w al sz cnt shift b r).2.1 := by
  intro cnt
  induction cnt with
  | zero =>
    intro shift b r h1 h2
    rw [scanWordAux]
    exact ⟨by simp, fun _ => h1, h2⟩
  | succ cnt ih =>
    intro shift b r h1 h2
    rw [scanWordAux]
    have hcase : (if w.testBit shift then 0 else if 0 < r ∨ b % al = 0 then r + 1 else r) = 0 ∨
        (if w.testBit shift then 0 else if 0 < r ∨ b % al = 0 then r + 1 else r) = r + 1 ∨
        (if w.testBit shift then 0 else if 0 < r ∨ b % al = 0 then r + 1 else r) = r := by
      split
      · exact Or.inl rfl
      · split
        · exact Or.inr (Or.inl rfl)
        · exact Or.inr (Or.inr rfl)
    by_cases hfound :
        (if w.testBit shift then 0 else if 0 < r ∨ b % al = 0 then r + 1 else r) = sz
    · rw [if_pos hfound]
      refine ⟨fun _ => hfound, by simp, ?_⟩
      show (if w.testBit shift then 0 else if 0 < r ∨ b % al = 0 then r + 1 else r) ≤ b + 1
      rcases hcase with h3 | h3 | h3 <;> omega
    · rw [if_neg hfound]
      refine ih (shift + 1) (b + 1)
        (if w.testBit shift then 0 else if 0 < r ∨ b % al = 0 then r + 1 else r) ?_ ?_
      · rcases hcase with h3 | h3 | h3 <;> omega
      · rcases hcase with h3 | h3 | h3 <;> omega

theorem scanMap_inv (al sz : Nat) :
    ∀ (ws : List Nat) (b r : Nat), r < sz → r ≤ b →
      ((scanMap al sz ws b r).1 = true → (scanMap al sz ws b r).2.2 = sz) ∧
      ((scanMap al sz ws b r).1 = false → (scanMap al sz ws b r).2.2 < sz) ∧
      (scanMap al sz ws b r).2.2 ≤ (scanMap al sz ws b r).2.1 := by
  intro ws
  induction ws with
  | nil =>
    intro b r h1 h2
    rw [scanMap]
    exact ⟨by simp, fun _ => h1, h2⟩
  | cons w ws ih =>
    intro b r h1 h2
    rw [scanMap]
    by_cases hfull : w = U64MAX
    · rw [if_pos hfull]
      exact ih (b + BLOCKS_PER) 0 (by omega) (by omega)
    · rw [if_neg hfull]
      rcases hscan : scanWordAux w al sz 64 0 b r with ⟨f, b1, r1⟩
      have hw := scanWordAux_inv w al sz 64 0 b r h1 h2
      rw [hscan] at hw
      rcases f with - | -
      · exact ih b1 r1 (hw.2.1 rfl) hw.2.2
      · exact ⟨fun _ => hw.1 rfl, by simp, hw.2.2⟩

theorem allocLoop_run (al sz : Nat) (hsz : 0 < sz) :
    ∀ (fuel : Nat) (m m1 : List Nat) (s e : Nat),
      allocLoop al sz fuel m = Option.some (m1, s, e) → e = s + sz := by
  intro fuel
  induction fuel with
  | zero =>
    intro m m1 s e h
    exact absurd h (by simp [allocLoop])
  | succ fuel ih =>
    intro m m1 s e h
    rw [allocLoop] at h
    by_cases hr : (scanMap al sz m 0 0).2.2 < sz
    · rw [if_pos hr] at h
      rcases hg : grow m sz with - | mg <;> rw [hg] at h
      · exact absurd h (by simp)
      · exact ih mg m1 s e h
    · rw [if_neg hr, Option.some.injEq] at h
      have hinv := scanMap_inv al sz m 0 0 hsz (Nat.le_refl 0)
      have hfound : (scanMap al sz m 0 0).1 = true := by
        rcases hf : (scanMap al sz m 0 0).1 with - | -
        · exact absurd (hinv.2.1 hf) hr
        · rfl
      have hreq : (scanMap al sz m 0 0).2.2 = sz := hinv.1 hfound
      have hle : (scanMap al sz m 0 0).2.2 ≤ (scanMap al sz m 0 0).2.1 := hinv.2.2
      obtain ⟨-, rfl, rfl⟩ : m = m1 ∧ (scanMap al sz m 0 0).2.1 -
          (scanMap al sz m 0 0).2.2 = s ∧ (scanMap al sz m 0 0).2.1 = e := by
        simpa [Prod.ext_iff] using h
      omega

/-- C2 corrected (size 0 excluded): for every positive `size` and any heap
state, when `alloc(size, align)` succeeds, `dealloc(ptr, size)` of its
result restores every BlockPage word touched by the allocation to its prior
bit state (the pre-alloc map, extended by the zeroed BlockPages that `grow`
appended during the alloc), and it unmaps and frees back to the ledger
exactly those pages whose word transitioned from non-zero to all-zero, and
no other pages. -/
theorem alloc_dealloc_roundtrip :
    ∀ (fuel : Nat) (m : List Nat) (size align ptr : Nat) (m2 mapped : List Nat),
      0 < size →
      blockAlloc fuel m size align = Option.some (ptr, m2, mapped) →
      ∃ freed,
        blockDealloc m2 ptr size =
          Option.some (m ++ List.replicate (m2.length - m.length) 0, freed) ∧
        (∀ j, j ∈ freed ↔ ∃ w2, m2[j]? = Option.some w2 ∧ w2 ≠ 0 ∧
          (m ++ List.replicate (m2.length - m.length) 0)[j]? = Option.some 0) := by
  intro fuel m size align ptr m2 mapped hsize h
  rw [blockAlloc] at h
  split at h
  · exact absurd h (by simp)
  · rename_i x m1 s e hl
    split at h
    · exact absurd h (by simp)
    · rename_i m2' mapped' hc
      have hszpos : 0 < (size + (BLOCK_SIZE - 1)) / BLOCK_SIZE := by
        show 0 < (size + (64 - 1)) / 64
        omega
      have he : e = s + (size + (BLOCK_SIZE - 1)) / BLOCK_SIZE :=
        allocLoop_run _ _ hszpos fuel m m1 s e hl
      obtain ⟨k, hk⟩ := allocLoop_extends fuel _ _ m m1 s e hl
      have hlen2 : m2'.length = m1.length := allocCommit_length _ _ _ _ _ _ _ hc
      obtain ⟨freed, hdeal, hcharr⟩ := commit_roundtrip _ _ _ _ _ _ _ hc
      have hvm : m ++ List.replicate (m2'.length - m.length) 0 = m1 := by
        rw [hlen2, hk]
        simp
      simp only [Option.some.injEq, Prod.mk.injEq] at h
      obtain ⟨rfl, rfl, rfl⟩ := h
      refine ⟨freed, ?_, ?_⟩
      · rw [blockDealloc]
        rw [Nat.mul_div_cancel s (show 0 < BLOCK_SIZE by decide)]
        rw [show alignUpDiv size BLOCK_SIZE = (size + (BLOCK_SIZE - 1)) / BLOCK_SIZE
          from rfl, ← he, hvm]
        exact hdeal
      · intro j
        rw [hvm]
        exact hcharr j

set_option maxRecDepth 100000 in
/-- C2 counterexample at `size = 0`: on the one-BlockPage heap `[0]` (64
free blocks), `alloc(0, 64)`'s scan counts the whole free run even though
zero blocks were requested, so the commit claims all 64 blocks (the word
becomes all-ones) and maps page 0; `dealloc(ptr, 0)` then computes an empty
block range and clears nothing, so the touched BlockPage stays all-ones
instead of returning to its prior state, and the mapped page is never
freed. -/
theorem alloc_dealloc_roundtrip_counterexample :
    blockAlloc 1 [0] 0 64 = Option.some (0, [2 ^ 64 - 1], [0]) ∧
    blockDealloc [2 ^ 64 - 1] 0 0 = Option.some ([2 ^ 64 - 1], []) ∧
    (2 ^ 64 - 1 : Nat) ≠ 0 :=
  ⟨by decide, by decide, by decide⟩

set_option maxRecDepth 100000 in
/-- Witness for the amended C2 at a concrete input: the round trip of
`alloc(4096, 64)` on a fresh heap. -/
theorem alloc_dealloc_roundtrip_witness :
    ∃ freed,
      blockDealloc ((2 ^ 64 - 1) :: List.replicate 511 0) 0 4096 =
        Option.some (([] : List Nat) ++ List.replicate
          (((2 ^ 64 - 1) :: List.replicate 511 0 : List Nat).length -
            ([] : List Nat).length) 0, freed) ∧
      (∀ j, j ∈ freed ↔ ∃ w2, ((2 ^ 64 - 1) :: List.replicate 511 0 : List Nat)[j]? =
        Option.some w2 ∧ w2 ≠ 0 ∧
        (([] : List Nat) ++ List.replicate
          (((2 ^ 64 - 1) :: List.replicate 511 0 : List Nat).length -
            ([] : List Nat).length) 0)[j]? = Option.some 0) :=
  alloc_dealloc_roundtrip 2 [] 4096 64 0 ((2 ^ 64 - 1) :: List.replicate 511 0) [0]
    (by norm_num) (by decide)

/-! ### The page managers: theorems -/

theorem removeBits_and (a m : Nat) : removeBits a m &&& m = 0 := by
  apply Nat.eq_of_testBit_eq
  intro i
  simp only [removeBits, Nat.testBit_and, Nat.testBit_xor, Nat.zero_testBit]
  cases a.testBit i <;> cases m.testBit i <;> rfl

theorem removeBits_one_mod (a : Nat) : removeBits a 1 % 2 = 0 := by
  have h := removeBits_and a 1
  rwa [Nat.and_one_is_mod] at h

/-- C1: for every page `p` and frame `f` that is `Free` in the ledger,
`map(p, f, Locked, attrs)` succeeds (locking `f`), and the following
`unmap(p, Locked)` succeeds, leaves `is_mapped(p) = false` (the present bit
is cleared) and returns `f` to the `Free` state in the ledger. -/
theorem map_unmap_roundtrip (s : LPMState) (p f attribs : Nat)
    (hf : s.frames[f]? = Option.some FrameState.Free) :
    (lpmMap s p f FrameOwnership.Locked attribs).1 = MapOut.ok ∧
    (lpmUnmap (lpmMap s p f FrameOwnership.Locked attribs).2 p FrameOwnership.Locked).1 =
      MapOut.ok ∧
    lpmIsMapped
      (lpmUnmap (lpmMap s p f FrameOwnership.Locked attribs).2 p FrameOwnership.Locked).2
      p = false ∧
    (lpmUnmap (lpmMap s p f FrameOwnership.Locked attribs).2 p
      FrameOwnership.Locked).2.frames[f]? = Option.some FrameState.Free := by
  have hflen : f < s.frames.length := by
    by_contra hcon
    rw [List.getElem?_eq_none (by omega)] at hf
    exact absurd hf (by simp)
  have hmap : lpmMap s p f FrameOwnership.Locked attribs =
      (MapOut.ok, { table := tableSet s.table p { frame := f, attribs := attribs },
                    frames := s.frames.set f FrameState.Locked }) := by
    rw [lpmMap, fmLock, hf]
  rw [hmap]
  have htab : tableSet s.table p { frame := f, attribs := attribs } p =
      Option.some { frame := f, attribs := attribs } := by
    simp [tableSet]
  have hunmap : lpmUnmap
      { table := tableSet s.table p { frame := f, attribs := attribs },
        frames := s.frames.set f FrameState.Locked } p FrameOwnership.Locked =
      (MapOut.ok,
        { table := tableSet (tableSet s.table p { frame := f, attribs := attribs }) p
            { frame := 0, attribs := removeBits attribs PM_PRESENT },
          frames := (s.frames.set f FrameState.Locked).set f FrameState.Free }) := by
    rw [lpmUnmap]
    simp only [htab]
    rw [fmFree, List.getElem?_set_self hflen]
  rw [hunmap]
  refine ⟨rfl, rfl, ?_, ?_⟩
  · simp [lpmIsMapped, tableSet, removeBits_and, PM_PRESENT, removeBits_one_mod]
  · rw [List.set_set, List.getElem?_set_self hflen]

/-- Witness for C1 at a concrete input: one-frame ledger, page 0 mapped to
frame 0 with attributes 3. -/
theorem map_unmap_roundtrip_witness :
    (lpmMap { table := fun _ => Option.none, frames := [FrameState.Free] }
      0 0 FrameOwnership.Locked 3).1 = MapOut.ok ∧
    (lpmUnmap (lpmMap { table := fun _ => Option.none, frames := [FrameState.Free] }
      0 0 FrameOwnership.Locked 3).2 0 FrameOwnership.Locked).1 = MapOut.ok ∧
    lpmIsMapped
      (lpmUnmap (lpmMap { table := fun _ => Option.none, frames := [FrameState.Free] }
        0 0 FrameOwnership.Locked 3).2 0 FrameOwnership.Locked).2 0 = false ∧
    (lpmUnmap (lpmMap { table := fun _ => Option.none, frames := [FrameState.Free] }
      0 0 FrameOwnership.Locked 3).2 0
      FrameOwnership.Locked).2.frames[0]? = Option.some FrameState.Free :=
  map_unmap_roundtrip { table := fun _ => Option.none, frames := [FrameState.Free] }
    0 0 3 (by decide)

/-- C9 counterexample: a state in which page 3 is already mapped (present
entry, frame 7), yet `map(3, 9, None, attrs)` does not return
`AlreadyMapped` — it returns `Ok` and silently overwrites the entry with
frame 9. -/
theorem map_already_mapped_counterexample :
    (lpmMap { table := fun q => if q = 3 then Option.some { frame := 7, attribs := 1 }
                else Option.none,
              frames := [] } 3 9 FrameOwnership.None 1).1 = MapOut.ok ∧
    (lpmMap { table := fun q => if q = 3 then Option.some { frame := 7, attribs := 1 }
                else Option.none,
              frames := [] } 3 9 FrameOwnership.None 1).1 ≠
      MapOut.er MapError.AlreadyMapped ∧
    (lpmMap { table := fun q => if q = 3 then Option.some { frame := 7, attribs := 1 }
                else Option.none,
              frames := [] } 3 9 FrameOwnership.None 1).2.table 3 =
      Option.some { frame := 9, attribs := 1 } := by
  refine ⟨rfl, by decide, by decide⟩

/-- C9 amended: `MapError` declares `AlreadyMapped`, but no code path of
`map` constructs it — for every state and call, the result is never
`AlreadyMapped`; mapping a page whose entry is already present with
`FrameOwnership::None` returns `Ok` and overwrites the entry. -/
theorem map_never_already_mapped :
    (∀ (s : LPMState) (p f : Nat) (own : FrameOwnership) (attribs : Nat),
      (lpmMap s p f own attribs).1 ≠ MapOut.er MapError.AlreadyMapped) ∧
    (∀ (s : LPMState) (p f attribs : Nat) (e : PageTableEntry),
      s.table p = Option.some e →
      (lpmMap s p f FrameOwnership.None attribs).1 = MapOut.ok ∧
      (lpmMap s p f FrameOwnership.None attribs).2.table p =
        Option.some { frame := f, attribs := attribs }) := by
  constructor
  · intro s p f own attribs
    rcases own with - | - | -
    · simp [lpmMap]
    · rcases hfb : fmBorrow s.frames f with ⟨r, fm⟩
      rcases r with e1 | v
      · simp [lpmMap, hfb]
      · simp [lpmMap, hfb]
    · rcases hfl : fmLock s.frames f with ⟨r, fm⟩
      rcases r with e1 | v
      · simp [lpmMap, hfl]
      · simp [lpmMap, hfl]
  · intro s p f attribs e he
    exact ⟨rfl, by simp [lpmMap, tableSet]⟩

/-- Witness for the amended C9: overwriting an already-present entry at a
concrete input. -/
theorem map_never_already_mapped_witness :
    (lpmMap { table := fun q => if q = 1 then Option.some { frame := 4, attribs := 1 }
                else Option.none,
              frames := [] } 1 6 FrameOwnership.None 3).1 = MapOut.ok ∧
    (lpmMap { table := fun q => if q = 1 then Option.some { frame := 4, attribs := 1 }
                else Option.none,
              frames := [] } 1 6 FrameOwnership.None 3).2.table 1 =
      Option.some { frame := 6, attribs := 3 } :=
  map_never_already_mapped.2
    { table := fun q => if q = 1 then Option.some { frame := 4, attribs := 1 }
        else Option.none,
      frames := [] } 1 6 3 { frame := 4, attribs := 1 } (by simp)

/-- C6 counterexample: map page 2 to frame 5 (no ledger interaction), then
`unmap(2, free_frame = false)`: the entry is no longer present
(`is_mapped = false`), yet `get_mapped_to(2)` still returns `Some 5` — the
stale frame field of a non-present entry is reported, not ignored. -/
theorem get_mapped_to_counterexample :
    (kpmUnmap (kpmMap { table := fun _ => Option.none, frames := [] }
      2 5 false 1).2 2 false).1 = MapOut.ok ∧
    kpmIsMapped (kpmUnmap (kpmMap { table := fun _ => Option.none, frames := [] }
      2 5 false 1).2 2 false).2 2 = false ∧
    kpmGetMappedTo (kpmUnmap (kpmMap { table := fun _ => Option.none, frames := [] }
      2 5 false 1).2 2 false).2 2 = Option.some 5 := by
  refine ⟨rfl, ?_, rfl⟩
  decide

/-- C6 amended: `get_mapped_to(p)` returns the raw frame field of `p`'s
leaf entry whenever the walk reaches it: after `map(p, f, ..)` it returns
`Some f`, and it keeps doing so even after `unmap(p, free_frame = false)`
makes the entry non-present — the kernel-crate `get_mapped_to` applies no
presence filter, so the frame field of a non-present entry is still
reported rather than ignored. -/
theorem get_mapped_to_behavior :
    (∀ (s : KPMState) (p f attribs : Nat),
      (kpmMap s p f false attribs).1 = MapOut.ok ∧
      kpmGetMappedTo (kpmMap s p f false attribs).2 p = Option.some f) ∧
    (∀ (s : KPMState) (p f attribs : Nat),
      (kpmUnmap (kpmMap s p f false attribs).2 p false).1 = MapOut.ok ∧
      kpmIsMapped (kpmUnmap (kpmMap s p f false attribs).2 p false).2 p = false ∧
      kpmGetMappedTo (kpmUnmap (kpmMap s p f false attribs).2 p false).2 p =
        Option.some f) := by
  have hmap : ∀ (s : KPMState) (p f attribs : Nat),
      kpmMap s p f false attribs =
        (MapOut.ok, { table := tableSet s.table p { frame := f, attribs := attribs },
                      frames := s.frames }) := by
    intro s p f attribs
    rw [kpmMap]
    rfl
  constructor
  · intro s p f attribs
    rw [hmap]
    exact ⟨rfl, by simp [kpmGetMappedTo, tableSet]⟩
  · intro s p f attribs
    rw [hmap]
    have htab : tableSet s.table p { frame := f, attribs := attribs } p =
        Option.some { frame := f, attribs := attribs } := by
      simp [tableSet]
    have hunmap : kpmUnmap
        { table := tableSet s.table p { frame := f, attribs := attribs },
          frames := s.frames } p false =
        (MapOut.ok,
          { table := tableSet (tableSet s.table p { frame := f, attribs := attribs }) p
              { frame := f, attribs := removeBits attribs PM_PRESENT },
            frames := s.frames }) := by
      rw [kpmUnmap]
      simp only [htab]
      rfl
    rw [hunmap]
    refine ⟨rfl, ?_, by simp [kpmGetMappedTo, tableSet]⟩
    simp [kpmIsMapped, tableSet, removeBits_and, PM_PRESENT, removeBits_one_mod]

set_option maxRecDepth 100000 in
/-- Witness for C8 at concrete inputs: growing a one-word map by one block
yields 512 BlockPages with the old word preserved and zeros appended;
`alloc`/`dealloc` length facts at the scenario-A states. -/
theorem blockmap_monotone_growth_witness :
    (([5] : List Nat).length < ((
      [5] ++ List.replicate 511 0 : List Nat)).length ∧
      ([5] ++ List.replicate 511 0 : List Nat)[0]? = ([5] : List Nat)[0]? ∧
      ([5] ++ List.replicate 511 0 : List Nat)[1]? = Option.some 0) ∧
    (([] : List Nat)).length ≤ ((2 ^ 64 - 1) :: List.replicate 511 0 : List Nat).length ∧
    ((2 ^ 64 - 1) :: 0 :: List.replicate 510 0 : List Nat).length =
      ((2 ^ 64 - 1) :: 1 :: List.replicate 510 0 : List Nat).length := by
  have h1 := blockmap_monotone_growth.1 [5] 1 ([5] ++ List.replicate 511 0) (by decide)
  have h2 := (blockmap_monotone_growth.2.1 2 [] 4096 64 0
    ((2 ^ 64 - 1) :: List.replicate 511 0) [0] (by decide)).1
  have h3 := blockmap_monotone_growth.2.2 ((2 ^ 64 - 1) :: 1 :: List.replicate 510 0) 4096 64
    ((2 ^ 64 - 1) :: 0 :: List.replicate 510 0) [1] (by decide)
  exact ⟨⟨h1.1, h1.2.1 0 (by decide), h1.2.2 1 (by decide) (by simp)⟩, h2, h3⟩

end Pyre
